import Mathlib

/-!
# Verification of the conference-PDF parsing and reconciliation engine

Shallow embedding of `src/utils/pdf_parser.py`: the normalization helpers,
validators, record extractors, intra-document deduplication, and the
cross-document reconciler `merge_all_companies`, together with theorems
settling the specification claims about them.

Python strings are modelled as Lean `String`; the float confidences (the
code only ever compares, maxes and stores the five constants
0, 0.75, 0.85, 0.90, 0.95) are modelled exactly as `Nat` hundredths
(0, 75, 85, 90, 95 — an order-embedding, so `max` and comparisons agree
with the source); dicts keyed by strings are modelled
as insertion-ordered association lists (Python dicts preserve insertion
order), and Python sets as duplicate-free lists in insertion order (the code
only observes the sets through `sorted(...)`, so insertion order is never
visible downstream).
-/

set_option maxHeartbeats 1000000

namespace PdfParser

/-- Python whitespace for `str.split()` / `\s` on the ASCII range, plus the
non-breaking space that `_norm` replaces by an ordinary space. -/
def pyws (c : Char) : Bool :=
  c.isWhitespace || c = ' ' || c = '\x0b' || c = '\x0c'

/-- Python `str.lower()` on the ASCII range.  (The byte-position-based
core `String` functions such as `String.toLower` are avoided throughout so
every definition evaluates inside the kernel.) -/
def strLower (s : String) : String := ⟨s.data.map Char.toLower⟩

/-- Python `str.upper()` on the ASCII range. -/
def strUpper (s : String) : String := ⟨s.data.map Char.toUpper⟩

/-- Split a character list at every character satisfying `p`, keeping empty
segments (the semantics of `String.split`). -/
def splitChars (p : Char → Bool) : List Char → List (List Char)
  | [] => [[]]
  | c :: cs =>
    match splitChars p cs with
    | [] => [[]]
    | w :: ws => if p c then [] :: w :: ws else (c :: w) :: ws

/-- `String.split` built on `splitChars`. -/
def splitStr (p : Char → Bool) (s : String) : List String :=
  (splitChars p s.data).map (fun w => (⟨w⟩ : String))

/-- Does `pat` occur at the head of `l`? (`startswith` on char lists). -/
def startsWithL : List Char → List Char → Bool
  | [], _ => true
  | _ :: _, [] => false
  | p :: ps, c :: cs => p = c && startsWithL ps cs

/-- Does `l` end with `pat`? -/
def endsWithL (l pat : List Char) : Bool := startsWithL pat.reverse l.reverse

/-- `_norm` (pdf_parser.py line 44): replace NBSP/tab by spaces, split on
whitespace, rejoin with single spaces (collapses runs and trims the ends). -/
def norm (s : String) : String :=
  " ".intercalate ((splitStr pyws s).filter (fun w => w ≠ ""))

/-- Python `str.strip()` restricted to a character predicate. -/
def stripChars (p : Char → Bool) (s : String) : String :=
  ⟨((s.data.dropWhile p).reverse.dropWhile p).reverse⟩

/-- Python `str.strip()` (whitespace on both ends). -/
def pyStrip (s : String) : String := stripChars pyws s

/-- `_strip_new_tag` (line 48): after `_norm`, the regex
`\s+\bNEW\b\s*$` (IGNORECASE) matches exactly when the normalized text ends
with the word `" new"` case-insensitively, and removal drops those four
characters; the final `.strip()` is `pyStrip`. -/
def strip_new_tag (s : String) : String :=
  let t := norm s
  if endsWithL (strLower t).data " new".data then
    pyStrip ⟨t.data.take (t.data.length - 4)⟩
  else t

/-- One pass of `re.sub(r"\s*&\s*", " & ", ...)` (line 57).  Whitespace runs
leading into an `&` are consumed here; whitespace following an `&` is left in
place, which is erased by the `\s+ → " "` collapse that
`clean_company_name` applies right afterwards (the replacement already
supplies the single spaces around each `&`). -/
def subAmp : List Char → List Char
  | [] => []
  | c :: cs =>
    if c = '&' then ' ' :: '&' :: ' ' :: subAmp cs
    else if pyws c && ((cs.dropWhile pyws).head? = some '&') then subAmp cs
    else c :: subAmp cs

/-- `clean_company_name` (line 54): strip the NEW tag, trim spaces and
commas, normalize ampersand spacing, collapse whitespace runs and trim. -/
def clean_company_name (name : String) : String :=
  let n := stripChars (fun c => c = ' ' || c = ',') (strip_new_tag name)
  norm ⟨subAmp n.data⟩

/-- Bad tokens of `is_person_name` (line 79). -/
def personBadWords : List String :=
  ["agenda", "speaker", "lineup", "register", "now", "about", "jump", "to",
   "day", "am", "pm"]

/-- One word of `is_person_name`: `^[A-Z][A-Za-z'\-\.]*$`. -/
def personWordOk (w : String) : Bool :=
  match w.data with
  | [] => false
  | c :: rest =>
    c.isUpper && rest.all (fun d => d.isAlpha || d = '\'' || d = '-' || d = '.')

/-- `is_person_name` (line 65): 2–4 capitalized tokens, 4–60 chars, no
commas/digits, no denylisted structural word. -/
def is_person_name (text : String) : Bool :=
  let t := norm text
  if t = "" || t.length < 4 || t.length > 60 then false
  else if t.data.any (fun c => c = ',') then false
  else if t.data.any (fun c => c.isDigit) then false
  else
    let words := (splitStr (fun c => c = ' ') t).filter (fun w => w ≠ "")
    if words.length < 2 || words.length > 4 then false
    else if words.any (fun w => personBadWords.contains (strLower w)) then false
    else words.all personWordOk

/-- `re.fullmatch(r"\d+(\.\d+)?%?", t)` (lines 94 and 199): digits, an
optional fractional part, an optional trailing percent sign. -/
def isNumericPercent (s : String) : Bool :=
  let l := s.data
  let ds := l.takeWhile Char.isDigit
  let r := l.dropWhile Char.isDigit
  if ds = [] then false
  else
    let r2 := match r with
      | '.' :: r' =>
        let ds2 := r'.takeWhile Char.isDigit
        if ds2 = [] then none else some (r'.dropWhile Char.isDigit)
      | _ => some r
    match r2 with
    | none => false
    | some r3 =>
      match r3 with
      | [] => true
      | ['%'] => true
      | _ => false

/-- `is_valid_company_name` (line 89). -/
def is_valid_company_name (text : String) : Bool :=
  let t := clean_company_name text
  if t = "" || t.length < 2 || t.length > 90 then false
  else if isNumericPercent t then false
  else true

/-- Python `pat in s` on char lists (substring test). -/
def hasSub (pat : List Char) : List Char → Bool
  | [] => startsWithL pat []
  | c :: cs => startsWithL pat (c :: cs) || hasSub pat cs

/-- Python `pat in s` for strings. -/
def strContains (s pat : String) : Bool := hasSub pat.data s.data

/-- Python `s.count(pat)` for a pattern with no nontrivial self-overlap
(such as `"team of"` or `","`): counting every starting position where the
pattern occurs equals counting the non-overlapping occurrences. -/
def countOcc (pat : List Char) : List Char → Nat
  | [] => 0
  | c :: cs => (if startsWithL pat (c :: cs) then 1 else 0) + countOcc pat cs

/-- `is_header_footer` (line 99). -/
def is_header_footer (text : String) : Bool :=
  let t := strLower (norm text)
  if t = "" then true
  else if strContains t "fieldserviceusa.wbresearch.com" then true
  else if strContains t "register now" || strContains t "jump to" then true
  else if strContains t "sponsorship" && strContains t "now open" then true
  else if strContains t "request a quote" then true
  else if t.length > 140 then true
  else if t ≠ "" && t.data.all Char.isDigit then true
  else false

/-- A `Record`: the dicts produced by the extractors.  Optional fields model
keys that may be `None` (or, for `source_page`, entirely absent, as in the
fallback extractor's records). -/
structure Rec where
  company : String
  source_pdf : Option String := none
  role : Option String := none
  contact_name : Option String := none
  contact_title : Option String := none
  team_size : Option Nat := none
  confidence : Nat := 0
  flags : List String := []
  source_page : Option Nat := none
deriving DecidableEq, Repr

/-- Python truthiness of an optional string (`None` and `""` are falsy). -/
def truthyStr (o : Option String) : Bool :=
  match o with
  | none => false
  | some s => s ≠ ""

/-- Python truthiness of an optional int (`None` and `0` are falsy). -/
def tsTruthy (o : Option Nat) : Bool :=
  match o with
  | some (_ + 1) => true
  | _ => false

/-- `_norm(x) or None`. -/
def optOfStr (s : String) : Option String := if s = "" then none else some s

/-- Parse `\s*\(Team of\s*(\d+)\)\s*$` against a suffix (IGNORECASE applies
to the letters of `Team of`); returns the captured number. -/
def teamOfSuffix (l : List Char) : Option Nat :=
  match (l.dropWhile pyws) with
  | '(' :: rest =>
    if startsWithL "team of".data (rest.map Char.toLower) then
      let r2 := (rest.drop 7).dropWhile pyws
      let ds := r2.takeWhile Char.isDigit
      match r2.dropWhile Char.isDigit with
      | ')' :: r4 =>
        if ds ≠ [] && (r4.dropWhile pyws) = [] then
          some (ds.foldl (fun n c => n * 10 + (c.toNat - '0'.toNat)) 0)
        else none
      | _ => none
    else none
  | _ => none

/-- Lazy scan of `re.match(r"^(.*?)\s*\(Team of\s*(\d+)\)\s*$", line)`: the
non-greedy group takes the shortest prefix whose remainder matches the
anchored suffix pattern. -/
def matchTeamOfAux (acc : List Char) : List Char → Option (String × Nat)
  | [] => none
  | c :: cs =>
    match teamOfSuffix (c :: cs) with
    | some n => some (⟨acc.reverse⟩, n)
    | none => matchTeamOfAux (c :: acc) cs

/-- The `<Company> (Team of <N>)` pattern (lines 189 and 395). -/
def matchTeamOf (line : String) : Option (String × Nat) :=
  matchTeamOfAux [] line.data

/-- Keyword filter inside the attendee page loop (line 186). -/
def attendeeLineKw (low : String) : Bool :=
  ["sponsorship", "speaking", "exhibition", "now open"].any
    (fun k => strContains low k)

/-- The emission tail of the attendee per-line loop (lines 199–216): the
post-checks on the cleaned company (numeric/percent, length 2–80) shared by
the match and non-match branches, then the record. -/
def attendeeEmit (pdfName : String) (pageIdx : Nat) (company : String)
    (team_size confidence : Nat) : Option Rec :=
  if isNumericPercent company then none
  else if company.length < 2 || company.length > 80 then none
  else
    some { company := company, source_pdf := some pdfName,
           role := some "attendee", contact_name := none,
           contact_title := none, team_size := some team_size,
           confidence := confidence, flags := [],
           source_page := some (pageIdx + 1) }

/-- The body of the attendee-list per-line loop (lines 180–216), on the
normalized line. -/
def attendeeLineCore (pdfName : String) (pageIdx : Nat) (line : String) :
    Option Rec :=
  if line = "" || is_header_footer line then none
  else if attendeeLineKw (strLower line) then none
  else
    match matchTeamOf line with
    | some (pre, n) =>
      attendeeEmit pdfName pageIdx (clean_company_name pre) n 95
    | none => attendeeEmit pdfName pageIdx (clean_company_name line) 1 90

/-- One raw line of the attendee-list loop (line 181: `line = _norm(raw)`),
then the per-line body. -/
def processAttendeeLine (pdfName : String) (pageIdx : Nat) (raw : String) :
    Option Rec :=
  attendeeLineCore pdfName pageIdx (norm raw)

/-- One page as the attendee extractor sees it: the raw `page.get_text()`
string and the text of each entry of `page.get_text("blocks")`. -/
structure AttendeePage where
  pageText : String
  blocks : List String
deriving DecidableEq, Repr

/-- The per-page body of `parse_attendee_list_pdf` (lines 166–216): the page
is skipped when the `"team of"` count is below 5 AND the block count is
below 40; otherwise every short block's lines are scanned. -/
def attendeePageRecs (pdfName : String) (pageIdx : Nat) (pg : AttendeePage) :
    List Rec :=
  let teamCnt := countOcc "team of".data (strLower pg.pageText).data
  if teamCnt < 5 && pg.blocks.length < 40 then []
  else
    pg.blocks.flatMap (fun blockText =>
      if blockText.length > 200 then []
      else (splitStr (fun c => c = '\n') blockText).filterMap
        (processAttendeeLine pdfName pageIdx))

/-- `_is_company_font` (line 133): bold-family fonts (bold but not light). -/
def is_company_font (font : String) : Bool :=
  let f := strLower font
  strContains f "bold" && !(strContains f "light")

/-- The backward company scan of `parse_agenda_speaker_lineup_pdf`
(lines 261–272), run over the card's lines in reverse order (from index
`len-1` down to 1; the name line at index 0 is never scanned).  `NEW` lines
are skipped without stopping the scan; bold-family lines are prepended; the
first other line stops the scan.  Returns the collected company parts (in
original order) and the final value of `j`. -/
def scanBack : List (String × String) → Nat → List String × Nat
  | [], j => ([], j)
  | (t, f) :: rest, j =>
    if strUpper t = "NEW" then scanBack rest (j - 1)
    else if is_company_font f then
      let (ps, j') := scanBack rest (j - 1)
      (ps ++ [strip_new_tag t], j')
    else ([], j)

/-- Keywords that disqualify a whole card (line 254). -/
def cardKw (combined : String) : Bool :=
  ["fieldserviceusa.wbresearch.com", "register now", "jump to", "about"].any
    (fun k => strContains combined k)

/-- One speaker card (lines 250–295).  `items` is the block's `line_items`:
the non-empty normalized line texts paired with their dominant fonts (the
span-to-line normalization is the external layout collaborator). -/
def processCard (pdfName : String) (pageIdx : Nat)
    (items : List (String × String)) : Option Rec :=
  if items.length < 3 then none
  else
    let combined := strLower (" ".intercalate (items.map (fun it => it.1)))
    if cardKw combined then none
    else
      match items with
      | [] => none
      | (name, _) :: _ =>
        if !is_person_name name then none
        else
          let (parts₀, j₀) := scanBack (items.drop 1).reverse (items.length - 1)
          let (parts, j) :=
            if parts₀ = [] then
              ([strip_new_tag (((items.getLast?).getD ("", "")).1)],
               items.length - 2)
            else (parts₀, j₀)
          let company := clean_company_name (" ".intercalate parts)
          let titleParts :=
            (((items.drop 1).take j).map (fun it => it.1)).filter
              (fun t => strUpper t ≠ "NEW")
          let title :=
            if titleParts = [] then none
            else some (norm (" ".intercalate titleParts))
          some { company := company, source_pdf := some pdfName,
                 role := some "speaker", contact_name := some (norm name),
                 contact_title := title, team_size := none,
                 confidence := 90, flags := [],
                 source_page := some (pageIdx + 1) }

/-- Per-page body of `parse_agenda_speaker_lineup_pdf` (lines 228–295):
pages without the section markers are skipped; each block's card is
processed. -/
def speakerPageRecs (pdfName : String) (pageIdx : Nat) (pageText : String)
    (blocks : List (List (String × String))) : List Rec :=
  if !(strContains pageText "SPEAKER LINEUP") &&
     !(strContains pageText "VOICES OF THE NEXT ERA") then []
  else blocks.filterMap (processCard pdfName pageIdx)

/-- Index of the first occurrence of `ch` (Python `str.find`), as `none`
when absent. -/
def idxOfChar (ch : Char) : List Char → Option Nat
  | [] => none
  | c :: cs =>
    if c = ch then some 0
    else (idxOfChar ch cs).map (fun i => i + 1)

/-- Index of the last occurrence of `ch` (Python `str.rfind`). -/
def lastIdxOfChar (ch : Char) (l : List Char) : Option Nat :=
  (idxOfChar ch l.reverse).map (fun i => l.length - 1 - i)

/-- The emission tail of the schedule-line pass (lines 330–347): the name
must pass `is_person_name`, the company the length bounds. -/
def scheduleEmit (pdfName : String) (pageIdx : Nat)
    (name company title : String) : Option Rec :=
  if !is_person_name name then none
  else if company.length < 2 || company.length > 80 then none
  else
    some { company := company, source_pdf := some pdfName,
           role := some "speaker", contact_name := some name,
           contact_title := optOfStr title, team_size := none,
           confidence := 75, flags := ["schedule_line_parse"],
           source_page := some (pageIdx + 1) }

/-- One line of `parse_agenda_schedule_lines` (lines 314–347), on the
normalized line: split a `Name, Title, Company` line on its first and last
commas. -/
def scheduleLineCore (pdfName : String) (pageIdx : Nat) (line : String) :
    Option Rec :=
  if line = "" || is_header_footer line then none
  else if countOcc [','] line.data < 2 then none
  else
    match idxOfChar ',' line.data, lastIdxOfChar ',' line.data with
    | some first, some last =>
      if last = first then none
      else
        scheduleEmit pdfName pageIdx (norm ⟨line.data.take first⟩)
          (clean_company_name ⟨line.data.drop (last + 1)⟩)
          (norm ⟨(line.data.take last).drop (first + 1)⟩)
    | _, _ => none

/-- One raw schedule line: normalization then the body. -/
def processScheduleLine (pdfName : String) (pageIdx : Nat) (raw : String) :
    Option Rec :=
  scheduleLineCore pdfName pageIdx (norm raw)

/-- Per-page body of `parse_agenda_schedule_lines` (lines 307–347). -/
def schedulePageRecs (pdfName : String) (pageIdx : Nat) (pageText : String) :
    List Rec :=
  if !(strContains pageText "AGENDA") && !(strContains pageText "Day") &&
     !(strContains pageText " AM") && !(strContains pageText " PM") then []
  else (splitStr (fun c => c = '\n') pageText).filterMap
    (processScheduleLine pdfName pageIdx)

/-- The dedup key of `_dedupe_records` (lines 144–149). -/
def recKey4 (r : Rec) : String × String × String × String :=
  (pyStrip (strLower r.company),
   pyStrip (strLower ((r.contact_name).getD "")),
   pyStrip (strLower ((r.contact_title).getD "")),
   pyStrip (strLower ((r.role).getD "")))

/-- `_dedupe_records` (line 139): drop records whose exact
(company, contact, title, role) key was already seen. -/
def dedupeRecordsAux (seen : List (String × String × String × String)) :
    List Rec → List Rec
  | [] => []
  | r :: rs =>
    let k := recKey4 r
    if k ∈ seen then dedupeRecordsAux seen rs
    else r :: dedupeRecordsAux (k :: seen) rs

/-- `_dedupe_records` entry point. -/
def dedupe_records (rows : List Rec) : List Rec := dedupeRecordsAux [] rows

/-- Association-list lookup, modelling Python dict access (dicts preserve
insertion order; keys are unique by construction). -/
def alookup (k : String) : List (String × α) → Option α
  | [] => none
  | (k', v) :: rest => if k' = k then some v else alookup k rest

/-- In-place update of the entry at key `k`. -/
def aupdate (k : String) (f : α → α) : List (String × α) → List (String × α)
  | [] => []
  | (k', v) :: rest =>
    if k' = k then (k', f v) :: rest else (k', v) :: aupdate k f rest

/-- `sorted(...)` over strings (Python sorts `str` lexicographically by code
point, which is the `String` linear order). -/
def sortStrs (l : List String) : List String :=
  List.insertionSort (fun a b : String => a ≤ b) l

/-- Python `set.add` modelled on a duplicate-free list. -/
def insertStr (s : String) (l : List String) : List String :=
  if s ∈ l then l else l ++ [s]

/-- `set(xs)` for a string list. -/
def dedupList (l : List String) : List String :=
  l.foldl (fun acc s => insertStr s acc) []

/-- Python `max(a or 0, b or 0) or a` on optional ints (line 432/470). -/
def pymaxTS (a b : Option Nat) : Option Nat :=
  let v := max (a.getD 0) (b.getD 0)
  if v = 0 then a else some v

/-- The collision branch of `deduplicate_companies` (lines 428–437): the
stored record keeps all its fields but takes the max confidence, the max
defined team size, and the sorted union of flags. -/
def collideRec (e c : Rec) : Rec :=
  { e with
    confidence := max e.confidence c.confidence,
    team_size :=
      if tsTruthy c.team_size then pymaxTS e.team_size c.team_size
      else e.team_size,
    flags := sortStrs (dedupList (e.flags ++ c.flags)) }

/-- One step of `deduplicate_companies` (lines 419–437): key is the
lower-cased stripped company; empty keys are dropped; the first record for a
key is stored as-is; collisions are merged with `collideRec`. -/
def dedupStep (st : List (String × Rec)) (c : Rec) : List (String × Rec) :=
  let key := pyStrip (strLower c.company)
  if key = "" then st
  else
    match alookup key st with
    | none => st ++ [(key, c)]
    | some _ => aupdate key (fun e => collideRec e c) st

/-- The dict built by `deduplicate_companies`. -/
def dedupState (l : List Rec) : List (String × Rec) := l.foldl dedupStep []

/-- `deduplicate_companies` (line 416). -/
def deduplicate_companies (companies : List Rec) : List Rec :=
  (dedupState companies).map (fun kv => kv.2)

/-- One contact of a `CompanyProfile` (line 478). -/
structure Contact where
  name : String
  title : Option String
  source_pdf : Option String
deriving DecidableEq, Repr

/-- The in-progress merged profile of `merge_all_companies` (lines 453–461),
before the output formatting.  `source_pdfs`, `roles` and `flags` model
Python sets as duplicate-free lists (only observed through `sorted`). -/
structure MProfile where
  company : String
  source_pdfs : List String
  roles : List String
  team_size : Option Nat
  confidence : Nat
  flags : List String
  contacts : List Contact
deriving DecidableEq, Repr

/-- The fresh profile created on first sighting of a key (lines 453–461). -/
def initProfile (company : String) (c : Rec) : MProfile :=
  { company := company, source_pdfs := [], roles := [],
    team_size := c.team_size, confidence := c.confidence,
    flags := dedupList c.flags, contacts := [] }

/-- The case-insensitive contact identity used by the dedup-append
(lines 483–487). -/
def ckey (ct : Contact) : String × String :=
  (strLower ct.name, strLower (ct.title.getD ""))

/-- The contact constructed from a record (lines 478–482). -/
def mkContact (c : Rec) : Contact :=
  { name := norm ((c.contact_name).getD ""),
    title := optOfStr (norm ((c.contact_title).getD "")),
    source_pdf := c.source_pdf }

/-- Append a contact unless one with the same case-insensitive (name, title)
already exists (lines 483–488). -/
def addContact (cts : List Contact) (ct : Contact) : List Contact :=
  if cts.any (fun ct' => ckey ct' = ckey ct) then cts else cts ++ [ct]

/-- The per-record profile update of `merge_all_companies` (lines 463–488);
every mutation the loop applies to `merged[key]`. -/
def updateProfile (m : MProfile) (c : Rec) : MProfile :=
  { m with
    source_pdfs :=
      if truthyStr c.source_pdf then
        insertStr ((c.source_pdf).getD "") m.source_pdfs
      else m.source_pdfs,
    roles :=
      if truthyStr c.role then insertStr ((c.role).getD "") m.roles
      else m.roles,
    team_size :=
      if tsTruthy c.team_size then pymaxTS m.team_size c.team_size
      else m.team_size,
    confidence := max m.confidence c.confidence,
    flags := c.flags.foldl (fun fs f => insertStr f fs) m.flags,
    contacts :=
      if truthyStr c.contact_name then addContact m.contacts (mkContact c)
      else m.contacts }

/-- Cleaned company of a record (line 447). -/
def recClean (c : Rec) : String := clean_company_name c.company

/-- Canonical merge key of a record (line 450). -/
def recMergeKey (c : Rec) : String := strLower (recClean c)

/-- Records with an empty cleaned company are skipped (line 448). -/
def validRec (c : Rec) : Bool := recClean c ≠ ""

/-- One loop iteration of `merge_all_companies` (lines 446–488). -/
def mergeStep (st : List (String × MProfile)) (c : Rec) :
    List (String × MProfile) :=
  if !validRec c then st
  else
    let key := recMergeKey c
    let st' :=
      match alookup key st with
      | none => st ++ [(key, initProfile (recClean c) c)]
      | some _ => st
    aupdate key (fun m => updateProfile m c) st'

/-- The `merged` dict after the loop of `merge_all_companies`. -/
def mergeState (l : List Rec) : List (String × MProfile) :=
  l.foldl mergeStep []

/-- The output row shape of `merge_all_companies` (lines 490–507): exactly
the keys `company`, `team_size`, `confidence`, `flags`, `contacts`,
`source_pdf`, `role`, `contact_name`, `contact_title`. -/
structure Out where
  company : String
  team_size : Option Nat
  confidence : Nat
  flags : List String
  contacts : List Contact
  source_pdf : String
  role : String
  contact_name : Option String
  contact_title : Option String
deriving DecidableEq, Repr

/-- The output formatting of `merge_all_companies` (lines 490–506). -/
def finalize (m : MProfile) : Out :=
  { company := m.company, team_size := m.team_size,
    confidence := m.confidence, flags := sortStrs m.flags,
    contacts := m.contacts,
    source_pdf := ", ".intercalate (sortStrs m.source_pdfs),
    role := ", ".intercalate (sortStrs (dedupList m.roles)),
    contact_name := (m.contacts.head?).map (fun ct => ct.name),
    contact_title := (m.contacts.head?).bind (fun ct => ct.title) }

/-- `merge_all_companies` (line 442). -/
def merge_all_companies (all_companies : List Rec) : List Out :=
  (mergeState all_companies).map (fun kv => finalize kv.2)

/-- One line of `parse_text_fallback` (lines 392–408): only the
`Company (Team of N)` pattern produces a record, and the record carries no
`source_page` key. -/
def fallbackLine (pdfName : String) (ln : String) : Option Rec :=
  if is_header_footer ln then none
  else
    match matchTeamOf ln with
    | some (pre, n) =>
      some { company := clean_company_name pre, source_pdf := some pdfName,
             role := some "attendee", contact_name := none,
             contact_title := none, team_size := some n,
             confidence := 85, flags := ["fallback_team_size"],
             source_page := none }
    | none => none

/-- `parse_text_fallback` (line 386), over the extracted full text. -/
def parse_text_fallback (pdfName : String) (text : String) : List Rec :=
  let lines :=
    ((splitStr (fun c => c = '\n') text).map pyStrip).filter (fun l => l ≠ "")
  deduplicate_companies (lines.filterMap (fallbackLine pdfName))

/-- `parse_attendee_list_pdf` (line 160), over pre-extracted pages. -/
def parse_attendee_list (pdfName : String) (pages : List AttendeePage) :
    List Rec :=
  deduplicate_companies
    ((pages.enum).flatMap (fun pq => attendeePageRecs pdfName pq.1 pq.2))

/-- The agenda/speaker branch of `parse_conference_pdf` (lines 362–366): the
two extractor outputs are concatenated and deduplicated with
`_dedupe_records` — not with the company-key collapse of
`deduplicate_companies`. -/
def parse_agenda_combined (speakerRecs scheduleRecs : List Rec) : List Rec :=
  dedupe_records (speakerRecs ++ scheduleRecs)

/- The character-level functions below are never unfolded by unification
during the structural proofs (their call graphs are deep, which makes
accidental `whnf` unfolding on symbolic arguments prohibitively expensive);
theorems that evaluate them on concrete inputs re-enable unfolding locally
with `unseal`. -/
attribute [irreducible] pyws strLower strUpper splitChars splitStr
  startsWithL endsWithL norm stripChars pyStrip strip_new_tag subAmp
  clean_company_name personWordOk is_person_name isNumericPercent
  is_valid_company_name hasSub strContains countOcc is_header_footer
  teamOfSuffix matchTeamOfAux matchTeamOf idxOfChar lastIdxOfChar
  attendeeLineKw cardKw is_company_font

/-! ## Association-list lemmas -/

theorem alookup_append_of_some {k : String} {st : List (String × α)} {w : α}
    (h : alookup k st = some w) (k' : String) (v : α) :
    alookup k (st ++ [(k', v)]) = some w := by
  induction st with
  | nil => simp [alookup] at h
  | cons p rest ih =>
    obtain ⟨a, b⟩ := p
    by_cases hak : a = k
    · simp only [alookup, hak, if_pos rfl] at h
      simpa [alookup, hak] using h
    · simp only [alookup, hak, if_neg hak] at h
      simpa [alookup, hak] using ih h

theorem alookup_append_of_none {k : String} {st : List (String × α)}
    (h : alookup k st = none) (k' : String) (v : α) :
    alookup k (st ++ [(k', v)]) = if k' = k then some v else none := by
  induction st with
  | nil => simp [alookup]
  | cons p rest ih =>
    obtain ⟨a, b⟩ := p
    by_cases hak : a = k
    · simp [alookup, hak] at h
    · simp only [alookup, hak, if_neg hak] at h
      simpa [alookup, hak] using ih h

theorem alookup_aupdate_self (k : String) (f : α → α)
    (st : List (String × α)) :
    alookup k (aupdate k f st) = (alookup k st).map f := by
  induction st with
  | nil => simp [alookup, aupdate]
  | cons p rest ih =>
    obtain ⟨a, b⟩ := p
    by_cases h : a = k <;> simp [alookup, aupdate, h, ih]

theorem alookup_aupdate_ne {k' k : String} (h : k' ≠ k) (f : α → α)
    (st : List (String × α)) :
    alookup k (aupdate k' f st) = alookup k st := by
  induction st with
  | nil => simp [alookup, aupdate]
  | cons p rest ih =>
    obtain ⟨a, b⟩ := p
    by_cases ha : a = k'
    · subst ha
      simp [alookup, aupdate, h, ih]
    · by_cases hk : a = k
      · subst hk
        simp [alookup, aupdate, ha, ih]
      · simp [alookup, aupdate, ha, hk, ih]

theorem aupdate_map_fst (k : String) (f : α → α) (st : List (String × α)) :
    (aupdate k f st).map Prod.fst = st.map Prod.fst := by
  induction st with
  | nil => simp [aupdate]
  | cons p rest ih =>
    obtain ⟨a, b⟩ := p
    by_cases h : a = k <;> simp [aupdate, h, ih]

theorem alookup_eq_none_iff (k : String) (st : List (String × α)) :
    alookup k st = none ↔ k ∉ st.map Prod.fst := by
  induction st with
  | nil => simp [alookup]
  | cons p rest ih =>
    obtain ⟨a, b⟩ := p
    by_cases h : a = k
    · subst h
      simp [alookup]
    · have hka : ¬(k = a) := fun hk => h hk.symm
      simp only [alookup, if_neg h, ih, List.map_cons, List.mem_cons]
      tauto

theorem alookup_isSome_iff (k : String) (st : List (String × α)) :
    (alookup k st).isSome = true ↔ k ∈ st.map Prod.fst := by
  rw [Option.isSome_iff_ne_none]
  simp [Ne, alookup_eq_none_iff]

/-! ## Set-as-list lemmas -/

theorem mem_insertStr (x s : String) (l : List String) :
    x ∈ insertStr s l ↔ x = s ∨ x ∈ l := by
  unfold insertStr
  split <;> rename_i h
  · constructor
    · exact fun hx => Or.inr hx
    · rintro (rfl | hx) <;> [exact h; exact hx]
  · simp [or_comm]

theorem nodup_insertStr (s : String) {l : List String} (h : l.Nodup) :
    (insertStr s l).Nodup := by
  unfold insertStr
  split <;> rename_i hs
  · exact h
  · rw [List.nodup_append]
    refine ⟨h, List.nodup_singleton s, ?_⟩
    intro a ha hb
    rw [List.mem_singleton] at hb
    exact hs (hb ▸ ha)

theorem mem_foldl_insertStr (l : List String) (init : List String)
    (x : String) :
    x ∈ l.foldl (fun acc s => insertStr s acc) init ↔ x ∈ init ∨ x ∈ l := by
  induction l generalizing init with
  | nil => simp
  | cons s rest ih =>
    simp only [List.foldl_cons, ih, mem_insertStr, List.mem_cons]
    tauto

theorem nodup_foldl_insertStr (l : List String) {init : List String}
    (h : init.Nodup) :
    (l.foldl (fun acc s => insertStr s acc) init).Nodup := by
  induction l generalizing init with
  | nil => exact h
  | cons s rest ih => exact ih (nodup_insertStr s h)

theorem mem_dedupList (x : String) (l : List String) :
    x ∈ dedupList l ↔ x ∈ l := by
  simp [dedupList, mem_foldl_insertStr]

theorem nodup_dedupList (l : List String) : (dedupList l).Nodup :=
  nodup_foldl_insertStr l List.nodup_nil

/-! ## Sorting lemmas -/

theorem mem_sortStrs (x : String) (l : List String) :
    x ∈ sortStrs l ↔ x ∈ l := by
  simp [sortStrs]

theorem nodup_sortStrs {l : List String} (h : l.Nodup) :
    (sortStrs l).Nodup :=
  (List.perm_insertionSort _ l).nodup_iff.mpr h

/-- Two duplicate-free string lists with the same members sort to the same
list. -/
theorem sortStrs_eq_of_mem_iff {l₁ l₂ : List String} (h₁ : l₁.Nodup)
    (h₂ : l₂.Nodup) (hm : ∀ x, x ∈ l₁ ↔ x ∈ l₂) :
    sortStrs l₁ = sortStrs l₂ := by
  have hp : l₁.Perm l₂ := (List.perm_ext_iff_of_nodup h₁ h₂).mpr hm
  have hp' : (sortStrs l₁).Perm (sortStrs l₂) :=
    ((List.perm_insertionSort _ l₁).trans hp).trans
      (List.perm_insertionSort _ l₂).symm
  exact List.eq_of_perm_of_sorted hp'
    (List.sorted_insertionSort _ l₁) (List.sorted_insertionSort _ l₂)

/-! ## Characterization of `merge_all_companies` per key -/

/-- Records with key `k` that the reconciler admits, in input order. -/
def recsFor (k : String) (l : List Rec) : List Rec :=
  l.filter (fun c => validRec c && (recMergeKey c == k))

/-- The per-key effect of one loop iteration, as a function on the optional
profile stored at that key. -/
def mergeUpd (o : Option MProfile) (c : Rec) : Option MProfile :=
  some (updateProfile (o.getD (initProfile (recClean c) c)) c)

theorem alookup_append_ne {key k : String} (h : key ≠ k)
    (st : List (String × α)) (v : α) :
    alookup k (st ++ [(key, v)]) = alookup k st := by
  cases hl : alookup k st with
  | none => rw [alookup_append_of_none hl, if_neg h]
  | some w => exact alookup_append_of_some hl key v

theorem mergeStep_lookup_ne {k : String} {c : Rec}
    (h : ¬(validRec c = true ∧ recMergeKey c = k))
    (st : List (String × MProfile)) :
    alookup k (mergeStep st c) = alookup k st := by
  unfold mergeStep
  by_cases hv : validRec c
  · have hk : recMergeKey c ≠ k := fun hk => h ⟨hv, hk⟩
    simp only [hv, Bool.not_true, Bool.false_eq_true, if_false]
    cases hl : alookup (recMergeKey c) st <;>
      simp only [hl] <;> rw [alookup_aupdate_ne hk]
    · rw [alookup_append_ne hk]
  · simp [hv]

theorem mergeStep_lookup_self {c : Rec} (hv : validRec c = true)
    (st : List (String × MProfile)) :
    alookup (recMergeKey c) (mergeStep st c) =
      mergeUpd (alookup (recMergeKey c) st) c := by
  unfold mergeStep
  simp only [hv, Bool.not_true, Bool.false_eq_true, if_false]
  cases hl : alookup (recMergeKey c) st with
  | none =>
    simp only [hl]
    rw [alookup_aupdate_self,
      alookup_append_of_none hl (recMergeKey c) (initProfile (recClean c) c),
      if_pos rfl]
    simp [mergeUpd, hl]
  | some m =>
    simp only [hl]
    rw [alookup_aupdate_self, hl]
    simp [mergeUpd]

theorem lookup_foldl_mergeStep (k : String) (l : List Rec) :
    ∀ st, alookup k (l.foldl mergeStep st) =
      (recsFor k l).foldl mergeUpd (alookup k st) := by
  induction l with
  | nil => intro st; rfl
  | cons c l' ih =>
    intro st
    by_cases h : validRec c = true ∧ recMergeKey c = k
    · obtain ⟨hv, hk⟩ := h
      have hstep := mergeStep_lookup_self hv st
      rw [hk] at hstep
      simp only [List.foldl_cons, ih (mergeStep st c), hstep, recsFor,
        List.filter_cons, hv, hk, beq_self_eq_true, Bool.and_self, if_true]
    · have hstep := mergeStep_lookup_ne h st
      have hfil : (recsFor k (c :: l')) = recsFor k l' := by
        simp only [recsFor, List.filter_cons]
        have : ¬(validRec c && (recMergeKey c == k)) = true := by
          intro hb
          simp only [Bool.and_eq_true, beq_iff_eq] at hb
          exact h hb
        simp [this]
      simp only [List.foldl_cons, ih (mergeStep st c), hstep, hfil]

/-- The profile accumulated for a key whose admitted records are
`r :: rs`. -/
def profileOf (r : Rec) (rs : List Rec) : MProfile :=
  (r :: rs).foldl updateProfile (initProfile (recClean r) r)

theorem foldl_mergeUpd_some (rs : List Rec) (m : MProfile) :
    rs.foldl mergeUpd (some m) = some (rs.foldl updateProfile m) := by
  induction rs generalizing m with
  | nil => rfl
  | cons c rs ih => simp [mergeUpd, ih]

theorem lookup_mergeState_nil {k : String} {l : List Rec}
    (h : recsFor k l = []) : alookup k (mergeState l) = none := by
  have := lookup_foldl_mergeStep k l []
  simpa [mergeState, h, alookup] using this

theorem lookup_mergeState_cons {k : String} {l : List Rec} {r : Rec}
    {rs : List Rec} (h : recsFor k l = r :: rs) :
    alookup k (mergeState l) = some (profileOf r rs) := by
  have := lookup_foldl_mergeStep k l []
  rw [mergeState, this, h]
  show (r :: rs).foldl mergeUpd none = some (profileOf r rs)
  simp only [List.foldl_cons]
  have h1 : mergeUpd none r =
      some (updateProfile (initProfile (recClean r) r) r) := rfl
  rw [h1, foldl_mergeUpd_some]
  rfl

/-! ## Key-set lemmas for `mergeState` -/

theorem mergeStep_keys_sub (st : List (String × MProfile)) (c : Rec)
    (k : String) (h : k ∈ (mergeStep st c).map Prod.fst) :
    k ∈ st.map Prod.fst ∨ k = recMergeKey c := by
  unfold mergeStep at h
  by_cases hv : validRec c
  · simp only [hv, Bool.not_true, Bool.false_eq_true, if_false] at h
    cases hl : alookup (recMergeKey c) st with
    | none =>
      rw [hl] at h
      rw [aupdate_map_fst] at h
      simp only [List.map_append] at h
      rcases List.mem_append.mp h with h1 | h1
      · exact Or.inl h1
      · simp at h1
        exact Or.inr h1
    | some m =>
      rw [hl] at h
      rw [aupdate_map_fst] at h
      exact Or.inl h
  · have hb : validRec c = false := by
      cases hvb : validRec c
      · rfl
      · exact absurd hvb hv
    simp only [hb, Bool.not_false, if_true] at h
    exact Or.inl h

theorem mergeStep_keys_nodup {st : List (String × MProfile)}
    (h : (st.map Prod.fst).Nodup) (c : Rec) :
    ((mergeStep st c).map Prod.fst).Nodup := by
  unfold mergeStep
  by_cases hv : validRec c
  · simp only [hv, Bool.not_true, Bool.false_eq_true, if_false]
    cases hl : alookup (recMergeKey c) st with
    | none =>
      rw [aupdate_map_fst]
      simp only [List.map_append]
      rw [List.nodup_append]
      refine ⟨h, by simp, ?_⟩
      intro a ha hb
      simp at hb
      subst hb
      exact ((alookup_eq_none_iff _ st).mp hl) ha
    | some m =>
      rw [aupdate_map_fst]
      exact h
  · simp [hv, h]

theorem mergeState_keys_nodup (l : List Rec) :
    ((mergeState l).map Prod.fst).Nodup := by
  have main : ∀ st : List (String × MProfile), (st.map Prod.fst).Nodup →
      ((l.foldl mergeStep st).map Prod.fst).Nodup := by
    induction l with
    | nil => intro st h; exact h
    | cons c l' ih =>
      intro st h
      rw [List.foldl_cons]
      apply ih
      exact mergeStep_keys_nodup h c
  unfold mergeState
  exact main [] (by simp)

theorem mergeState_mem_keys (k : String) (l : List Rec) :
    k ∈ (mergeState l).map Prod.fst ↔ recsFor k l ≠ [] := by
  rw [← alookup_isSome_iff]
  cases h : recsFor k l with
  | nil => simp [lookup_mergeState_nil h]
  | cons r rs => simp [lookup_mergeState_cons h]

/-! ## Field-wise behavior of the profile fold -/

theorem updateProfile_company (m : MProfile) (c : Rec) :
    (updateProfile m c).company = m.company := rfl

theorem updateProfile_confidence (m : MProfile) (c : Rec) :
    (updateProfile m c).confidence = max m.confidence c.confidence := rfl

theorem foldl_updateProfile_company (rs : List Rec) (m : MProfile) :
    (rs.foldl updateProfile m).company = m.company := by
  induction rs generalizing m with
  | nil => rfl
  | cons c rs ih => simp [ih, updateProfile_company]

theorem profileOf_company (r : Rec) (rs : List Rec) :
    (profileOf r rs).company = recClean r := by
  simp [profileOf, foldl_updateProfile_company, updateProfile_company,
    initProfile]

/-- Optional maximum of the confidences seen so far: the per-record step of
the reconciler's running `max`, in accumulator form. -/
def omaxConf (o : Option Nat) (r : Rec) : Option Nat :=
  some (max (o.getD r.confidence) r.confidence)

theorem omaxConf_comm (a b : Rec) (o : Option Nat) :
    omaxConf (omaxConf o a) b = omaxConf (omaxConf o b) a := by
  cases o with
  | none =>
    simp only [omaxConf, Option.getD_none, Option.getD_some, max_self]
    exact congrArg some (max_comm _ _)
  | some x =>
    simp only [omaxConf, Option.getD_some]
    rw [max_assoc, max_comm a.confidence b.confidence, ← max_assoc]

theorem foldl_updateProfile_confidence (rs : List Rec) (m : MProfile) :
    (rs.foldl updateProfile m).confidence =
      rs.foldl (fun a r => max a r.confidence) m.confidence := by
  induction rs generalizing m with
  | nil => rfl
  | cons c rs ih => simp [ih, updateProfile_confidence]

theorem foldl_omaxConf_some (rs : List Rec) (a : Nat) :
    rs.foldl omaxConf (some a) =
      some (rs.foldl (fun x r => max x r.confidence) a) := by
  induction rs generalizing a with
  | nil => rfl
  | cons c rs ih => simp [omaxConf, ih]

theorem profileOf_confidence (r : Rec) (rs : List Rec) :
    some (profileOf r rs).confidence = (r :: rs).foldl omaxConf none := by
  simp only [profileOf, List.foldl_cons, foldl_updateProfile_confidence]
  have h0 : (updateProfile (initProfile (recClean r) r) r).confidence =
      r.confidence := by
    simp [updateProfile_confidence, initProfile]
  rw [h0]
  have h1 : omaxConf none r = some r.confidence := by simp [omaxConf]
  rw [h1, foldl_omaxConf_some]

/-- Records whose `team_size` is Python-well-formed for the merge: absent or
positive (a stored `0` would be falsy and behave like `None`). -/
def tsOK (r : Rec) : Prop := r.team_size ≠ some 0

instance (r : Rec) : Decidable (tsOK r) :=
  inferInstanceAs (Decidable (r.team_size ≠ some 0))

/-- Running maximum over the known (truthy) team sizes, in accumulator
form. -/
def knownMaxTS (o : Option Nat) (r : Rec) : Option Nat :=
  if tsTruthy r.team_size then
    some (max (o.getD 0) ((r.team_size).getD 0))
  else o

theorem knownMaxTS_comm (a b : Rec) (o : Option Nat) :
    knownMaxTS (knownMaxTS o a) b = knownMaxTS (knownMaxTS o b) a := by
  unfold knownMaxTS
  split_ifs
  · simp only [Option.getD_some]
    congr 1
    omega
  all_goals rfl

theorem updateProfile_team_size (m : MProfile) (c : Rec) :
    (updateProfile m c).team_size =
      if tsTruthy c.team_size then pymaxTS m.team_size c.team_size
      else m.team_size := rfl

/-- Accumulator invariant: a `none`-or-positive accumulated team size is
updated exactly like `knownMaxTS` by each `tsOK` record. -/
theorem foldl_updateProfile_team_size (rs : List Rec) (m : MProfile)
    (hok : ∀ q ∈ rs, tsOK q) (hm : m.team_size = none ∨
      ∃ n : Nat, m.team_size = some (n + 1)) :
    (rs.foldl updateProfile m).team_size =
      rs.foldl knownMaxTS m.team_size := by
  induction rs generalizing m with
  | nil => rfl
  | cons c rs ih =>
    have hokc : tsOK c := hok c (by simp)
    have hokr : ∀ q ∈ rs, tsOK q := fun q hq => hok q (by simp [hq])
    simp only [List.foldl_cons]
    cases hts : c.team_size with
    | none =>
      have h1 : (updateProfile m c).team_size = m.team_size := by
        simp [updateProfile_team_size, hts, tsTruthy]
      have h2 : knownMaxTS m.team_size c = m.team_size := by
        simp [knownMaxTS, hts, tsTruthy]
      rw [ih (updateProfile m c) hokr (h1 ▸ hm), h1, h2]
    | some n =>
      cases n with
      | zero => exact absurd hts hokc
      | succ n =>
        have htr : tsTruthy c.team_size = true := by simp [hts, tsTruthy]
        have h1 : (updateProfile m c).team_size =
            some (max ((m.team_size).getD 0) (n + 1)) := by
          rw [updateProfile_team_size, if_pos htr]
          simp only [pymaxTS, hts, Option.getD_some]
          have hne : max ((m.team_size).getD 0) (n + 1) ≠ 0 := by omega
          simp [hne]
        have h2 : knownMaxTS m.team_size c =
            some (max ((m.team_size).getD 0) (n + 1)) := by
          unfold knownMaxTS
          rw [if_pos htr, hts]
          simp
        have harg : (updateProfile m c).team_size = none ∨
            ∃ k : Nat, (updateProfile m c).team_size = some (k + 1) := by
          refine Or.inr ⟨max ((m.team_size).getD 0) (n + 1) - 1, ?_⟩
          rw [h1]
          congr 1
          omega
        rw [ih (updateProfile m c) hokr harg, h1, h2]

theorem profileOf_team_size (r : Rec) (rs : List Rec)
    (hok : ∀ q ∈ r :: rs, tsOK q) :
    (profileOf r rs).team_size = (r :: rs).foldl knownMaxTS none := by
  have hokr : tsOK r := hok r (by simp)
  have hokrs : ∀ q ∈ rs, tsOK q := fun q hq => hok q (by simp [hq])
  simp only [profileOf, List.foldl_cons]
  cases hts : r.team_size with
  | none =>
    have h1 : (updateProfile (initProfile (recClean r) r) r).team_size =
        none := by
      simp [updateProfile_team_size, hts, tsTruthy, initProfile]
    have h2 : knownMaxTS none r = none := by simp [knownMaxTS, hts, tsTruthy]
    rw [foldl_updateProfile_team_size rs _ hokrs (by rw [h1]; exact Or.inl rfl),
      h1, h2]
  | some n =>
    cases n with
    | zero => exact absurd hts hokr
    | succ n =>
      have htr : tsTruthy r.team_size = true := by simp [hts, tsTruthy]
      have h1 : (updateProfile (initProfile (recClean r) r) r).team_size =
          some (n + 1) := by
        rw [updateProfile_team_size, if_pos htr]
        show pymaxTS r.team_size r.team_size = some (n + 1)
        unfold pymaxTS
        rw [hts]
        simp
      have h2 : knownMaxTS none r = some (n + 1) := by
        unfold knownMaxTS
        rw [if_pos htr, hts]
        simp
      rw [foldl_updateProfile_team_size rs _ hokrs
        (by rw [h1]; exact Or.inr ⟨n, rfl⟩), h1, h2]

theorem updateProfile_flags_mem (m : MProfile) (c : Rec) (x : String) :
    x ∈ (updateProfile m c).flags ↔ x ∈ m.flags ∨ x ∈ c.flags := by
  show x ∈ c.flags.foldl (fun fs f => insertStr f fs) m.flags ↔ _
  rw [mem_foldl_insertStr]

theorem updateProfile_flags_nodup {m : MProfile} (h : m.flags.Nodup)
    (c : Rec) : (updateProfile m c).flags.Nodup :=
  nodup_foldl_insertStr c.flags h

theorem foldl_updateProfile_flags_mem (rs : List Rec) (m : MProfile)
    (x : String) :
    x ∈ (rs.foldl updateProfile m).flags ↔
      x ∈ m.flags ∨ ∃ q ∈ rs, x ∈ q.flags := by
  induction rs generalizing m with
  | nil => simp
  | cons c rs ih =>
    simp only [List.foldl_cons, ih, updateProfile_flags_mem, List.mem_cons]
    constructor
    · rintro ((h | h) | ⟨q, hq, hx⟩)
      · exact Or.inl h
      · exact Or.inr ⟨c, Or.inl rfl, h⟩
      · exact Or.inr ⟨q, Or.inr hq, hx⟩
    · rintro (h | ⟨q, (rfl | hq), hx⟩)
      · exact Or.inl (Or.inl h)
      · exact Or.inl (Or.inr hx)
      · exact Or.inr ⟨q, hq, hx⟩

theorem foldl_updateProfile_flags_nodup (rs : List Rec) {m : MProfile}
    (h : m.flags.Nodup) : (rs.foldl updateProfile m).flags.Nodup := by
  induction rs generalizing m with
  | nil => exact h
  | cons c rs ih => exact ih (updateProfile_flags_nodup h c)

theorem profileOf_flags_mem (r : Rec) (rs : List Rec) (x : String) :
    x ∈ (profileOf r rs).flags ↔ ∃ q ∈ r :: rs, x ∈ q.flags := by
  simp only [profileOf, List.foldl_cons, foldl_updateProfile_flags_mem,
    updateProfile_flags_mem, initProfile, mem_dedupList, List.mem_cons]
  constructor
  · rintro ((h | h) | ⟨q, hq, hx⟩)
    · exact ⟨r, Or.inl rfl, h⟩
    · exact ⟨r, Or.inl rfl, h⟩
    · exact ⟨q, Or.inr hq, hx⟩
  · rintro ⟨q, (rfl | hq), hx⟩
    · exact Or.inl (Or.inl hx)
    · exact Or.inr ⟨q, hq, hx⟩

theorem profileOf_flags_nodup (r : Rec) (rs : List Rec) :
    (profileOf r rs).flags.Nodup := by
  unfold profileOf
  refine foldl_updateProfile_flags_nodup (r :: rs) ?_
  show (dedupList r.flags).Nodup
  exact nodup_dedupList r.flags

theorem updateProfile_source_pdfs (m : MProfile) (c : Rec) :
    (updateProfile m c).source_pdfs =
      if truthyStr c.source_pdf then
        insertStr ((c.source_pdf).getD "") m.source_pdfs
      else m.source_pdfs := rfl

theorem updateProfile_roles (m : MProfile) (c : Rec) :
    (updateProfile m c).roles =
      if truthyStr c.role then insertStr ((c.role).getD "") m.roles
      else m.roles := rfl

theorem foldl_updateProfile_source_pdfs_mem (rs : List Rec) (m : MProfile)
    (s : String) :
    s ∈ (rs.foldl updateProfile m).source_pdfs ↔
      s ∈ m.source_pdfs ∨ ∃ q ∈ rs, q.source_pdf = some s ∧ s ≠ "" := by
  induction rs generalizing m with
  | nil => simp
  | cons c rs ih =>
    simp only [List.foldl_cons, ih, updateProfile_source_pdfs, List.mem_cons]
    by_cases ht : truthyStr c.source_pdf
    · obtain ⟨t, htv, hne⟩ : ∃ t, c.source_pdf = some t ∧ t ≠ "" := by
        cases hv : c.source_pdf with
        | none => rw [hv] at ht; exact absurd ht (by simp [truthyStr])
        | some t =>
          rw [hv] at ht
          refine ⟨t, rfl, ?_⟩
          simpa [truthyStr] using ht
      rw [if_pos ht, htv]
      simp only [Option.getD_some, mem_insertStr]
      constructor
      · rintro ((rfl | h) | ⟨q, hq, hv', hne'⟩)
        · exact Or.inr ⟨c, Or.inl rfl, htv, hne⟩
        · exact Or.inl h
        · exact Or.inr ⟨q, Or.inr hq, hv', hne'⟩
      · rintro (h | ⟨q, (rfl | hq), hv', hne'⟩)
        · exact Or.inl (Or.inr h)
        · rw [htv] at hv'
          exact Or.inl (Or.inl (by injection hv' with h'; exact h'.symm))
        · exact Or.inr ⟨q, hq, hv', hne'⟩
    · rw [if_neg ht]
      constructor
      · rintro (h | ⟨q, hq, hv', hne'⟩)
        · exact Or.inl h
        · exact Or.inr ⟨q, Or.inr hq, hv', hne'⟩
      · rintro (h | ⟨q, (rfl | hq), hv', hne'⟩)
        · exact Or.inl h
        · exact absurd (by simp [truthyStr, hv', hne'] :
            truthyStr q.source_pdf = true) ht
        · exact Or.inr ⟨q, hq, hv', hne'⟩

theorem foldl_updateProfile_roles_mem (rs : List Rec) (m : MProfile)
    (s : String) :
    s ∈ (rs.foldl updateProfile m).roles ↔
      s ∈ m.roles ∨ ∃ q ∈ rs, q.role = some s ∧ s ≠ "" := by
  induction rs generalizing m with
  | nil => simp
  | cons c rs ih =>
    simp only [List.foldl_cons, ih, updateProfile_roles, List.mem_cons]
    by_cases ht : truthyStr c.role
    · obtain ⟨t, htv, hne⟩ : ∃ t, c.role = some t ∧ t ≠ "" := by
        cases hv : c.role with
        | none => rw [hv] at ht; exact absurd ht (by simp [truthyStr])
        | some t =>
          rw [hv] at ht
          refine ⟨t, rfl, ?_⟩
          simpa [truthyStr] using ht
      rw [if_pos ht, htv]
      simp only [Option.getD_some, mem_insertStr]
      constructor
      · rintro ((rfl | h) | ⟨q, hq, hv', hne'⟩)
        · exact Or.inr ⟨c, Or.inl rfl, htv, hne⟩
        · exact Or.inl h
        · exact Or.inr ⟨q, Or.inr hq, hv', hne'⟩
      · rintro (h | ⟨q, (rfl | hq), hv', hne'⟩)
        · exact Or.inl (Or.inr h)
        · rw [htv] at hv'
          exact Or.inl (Or.inl (by injection hv' with h'; exact h'.symm))
        · exact Or.inr ⟨q, hq, hv', hne'⟩
    · rw [if_neg ht]
      constructor
      · rintro (h | ⟨q, hq, hv', hne'⟩)
        · exact Or.inl h
        · exact Or.inr ⟨q, Or.inr hq, hv', hne'⟩
      · rintro (h | ⟨q, (rfl | hq), hv', hne'⟩)
        · exact Or.inl h
        · exact absurd (by simp [truthyStr, hv', hne'] :
            truthyStr q.role = true) ht
        · exact Or.inr ⟨q, hq, hv', hne'⟩

theorem foldl_updateProfile_source_pdfs_nodup (rs : List Rec) {m : MProfile}
    (h : m.source_pdfs.Nodup) :
    (rs.foldl updateProfile m).source_pdfs.Nodup := by
  induction rs generalizing m with
  | nil => exact h
  | cons c rs ih =>
    refine ih ?_
    rw [updateProfile_source_pdfs]
    split
    · exact nodup_insertStr _ h
    · exact h

theorem foldl_updateProfile_roles_nodup (rs : List Rec) {m : MProfile}
    (h : m.roles.Nodup) :
    (rs.foldl updateProfile m).roles.Nodup := by
  induction rs generalizing m with
  | nil => exact h
  | cons c rs ih =>
    refine ih ?_
    rw [updateProfile_roles]
    split
    · exact nodup_insertStr _ h
    · exact h

theorem profileOf_source_pdfs_mem (r : Rec) (rs : List Rec) (s : String) :
    s ∈ (profileOf r rs).source_pdfs ↔
      ∃ q ∈ r :: rs, q.source_pdf = some s ∧ s ≠ "" := by
  unfold profileOf
  rw [foldl_updateProfile_source_pdfs_mem]
  show s ∈ ([] : List String) ∨ _ ↔ _
  simp

theorem profileOf_roles_mem (r : Rec) (rs : List Rec) (s : String) :
    s ∈ (profileOf r rs).roles ↔
      ∃ q ∈ r :: rs, q.role = some s ∧ s ≠ "" := by
  unfold profileOf
  rw [foldl_updateProfile_roles_mem]
  show s ∈ ([] : List String) ∨ _ ↔ _
  simp

theorem profileOf_source_pdfs_nodup (r : Rec) (rs : List Rec) :
    (profileOf r rs).source_pdfs.Nodup := by
  unfold profileOf
  exact foldl_updateProfile_source_pdfs_nodup (r :: rs) List.nodup_nil

theorem profileOf_roles_nodup (r : Rec) (rs : List Rec) :
    (profileOf r rs).roles.Nodup := by
  unfold profileOf
  exact foldl_updateProfile_roles_nodup (r :: rs) List.nodup_nil

/-! ## Contact lemmas -/

/-- The case-insensitive contact key contributed by a record. -/
def rkeyC (c : Rec) : String × String :=
  (strLower (norm ((c.contact_name).getD "")),
   strLower (norm ((c.contact_title).getD "")))

theorem optOfStr_getD (t : String) : (optOfStr t).getD "" = t := by
  unfold optOfStr
  split
  · simp_all
  · rfl

theorem ckey_mkContact (c : Rec) : ckey (mkContact c) = rkeyC c := by
  simp [ckey, mkContact, rkeyC, optOfStr_getD]

theorem addContact_ckey_mem (cts : List Contact) (ct : Contact)
    (p : String × String) :
    p ∈ (addContact cts ct).map ckey ↔ p ∈ cts.map ckey ∨ p = ckey ct := by
  unfold addContact
  split <;> rename_i hany
  · simp only [List.any_eq_true, decide_eq_true_eq] at hany
    obtain ⟨ct', hct', hk⟩ := hany
    constructor
    · exact fun h => Or.inl h
    · rintro (h | rfl)
      · exact h
      · exact List.mem_map.mpr ⟨ct', hct', hk⟩
  · simp [or_comm]

theorem addContact_ckey_nodup {cts : List Contact}
    (h : (cts.map ckey).Nodup) (ct : Contact) :
    ((addContact cts ct).map ckey).Nodup := by
  unfold addContact
  split <;> rename_i hany
  · exact h
  · simp only [List.map_append, List.map_cons, List.map_nil]
    rw [List.nodup_append]
    refine ⟨h, by simp, ?_⟩
    intro p hp hq
    rw [List.mem_singleton] at hq
    subst hq
    obtain ⟨ct', hct', hk⟩ := List.mem_map.mp hp
    exact hany (by
      simp only [List.any_eq_true, decide_eq_true_eq]
      exact ⟨ct', hct', hk⟩)

theorem addContact_keeps (cts : List Contact) (ct : Contact) :
    (addContact cts ct).take cts.length = cts := by
  unfold addContact
  split
  · exact List.take_length cts
  · exact List.take_left cts [ct]

theorem updateProfile_contacts (m : MProfile) (c : Rec) :
    (updateProfile m c).contacts =
      if truthyStr c.contact_name then addContact m.contacts (mkContact c)
      else m.contacts := rfl

theorem updateProfile_contacts_keeps (m : MProfile) (c : Rec) :
    ((updateProfile m c).contacts).take m.contacts.length = m.contacts := by
  rw [updateProfile_contacts]
  split
  · exact addContact_keeps m.contacts (mkContact c)
  · exact List.take_length m.contacts

theorem foldl_updateProfile_contacts_mem (rs : List Rec) (m : MProfile)
    (p : String × String) :
    p ∈ ((rs.foldl updateProfile m).contacts).map ckey ↔
      p ∈ m.contacts.map ckey ∨
        ∃ q ∈ rs, truthyStr q.contact_name = true ∧ rkeyC q = p := by
  induction rs generalizing m with
  | nil => simp
  | cons c rs ih =>
    simp only [List.foldl_cons, ih, updateProfile_contacts, List.mem_cons]
    by_cases ht : truthyStr c.contact_name
    · simp only [ht, if_true, addContact_ckey_mem, ckey_mkContact]
      constructor
      · rintro ((h | rfl) | ⟨q, hq, hqt, hqk⟩)
        · exact Or.inl h
        · exact Or.inr ⟨c, Or.inl rfl, ht, rfl⟩
        · exact Or.inr ⟨q, Or.inr hq, hqt, hqk⟩
      · rintro (h | ⟨q, (rfl | hq), hqt, hqk⟩)
        · exact Or.inl (Or.inl h)
        · exact Or.inl (Or.inr hqk.symm)
        · exact Or.inr ⟨q, hq, hqt, hqk⟩
    · simp only [ht, if_false]
      constructor
      · rintro (h | ⟨q, hq, hqt, hqk⟩)
        · exact Or.inl h
        · exact Or.inr ⟨q, Or.inr hq, hqt, hqk⟩
      · rintro (h | ⟨q, (rfl | hq), hqt, hqk⟩)
        · exact Or.inl h
        · exact absurd hqt ht
        · exact Or.inr ⟨q, hq, hqt, hqk⟩

theorem foldl_updateProfile_contacts_nodup (rs : List Rec) {m : MProfile}
    (h : (m.contacts.map ckey).Nodup) :
    (((rs.foldl updateProfile m).contacts).map ckey).Nodup := by
  induction rs generalizing m with
  | nil => exact h
  | cons c rs ih =>
    refine ih ?_
    rw [updateProfile_contacts]
    split
    · exact addContact_ckey_nodup h (mkContact c)
    · exact h

theorem profileOf_contacts_mem (r : Rec) (rs : List Rec) (p : String × String) :
    p ∈ ((profileOf r rs).contacts).map ckey ↔
      ∃ q ∈ r :: rs, truthyStr q.contact_name = true ∧ rkeyC q = p := by
  unfold profileOf
  rw [foldl_updateProfile_contacts_mem]
  show p ∈ ([] : List Contact).map ckey ∨ _ ↔ _
  simp

theorem profileOf_contacts_nodup (r : Rec) (rs : List Rec) :
    (((profileOf r rs).contacts).map ckey).Nodup := by
  unfold profileOf
  refine foldl_updateProfile_contacts_nodup (r :: rs) ?_
  show (([] : List Contact).map ckey).Nodup
  simp

/-! ## Characterization of `deduplicate_companies` per key -/

/-- The grouping key of `deduplicate_companies` (line 420). -/
def ddKey (c : Rec) : String := pyStrip (strLower c.company)

/-- Records with a non-empty key are kept (line 421). -/
def ddValid (c : Rec) : Bool := ddKey c ≠ ""

/-- Admitted records of one key, in input order. -/
def drecsFor (k : String) (l : List Rec) : List Rec :=
  l.filter (fun c => ddValid c && (ddKey c == k))

/-- Per-key effect of one `deduplicate_companies` iteration. -/
def dedupUpd (o : Option Rec) (c : Rec) : Option Rec :=
  match o with
  | none => some c
  | some e => some (collideRec e c)

theorem dedupStep_lookup_ne {k : String} {c : Rec}
    (h : ¬(ddValid c = true ∧ ddKey c = k)) (st : List (String × Rec)) :
    alookup k (dedupStep st c) = alookup k st := by
  unfold dedupStep
  by_cases hv : ddValid c
  · have hk : ddKey c ≠ k := fun hk => h ⟨hv, hk⟩
    have hkey : ¬(pyStrip (strLower c.company) = "") := by
      simpa [ddValid, ddKey] using hv
    simp only [ddKey] at hk
    rw [if_neg hkey]
    cases hl : alookup (pyStrip (strLower c.company)) st with
    | none =>
      simp only [hl]
      rw [alookup_append_ne hk]
    | some e =>
      simp only [hl]
      rw [alookup_aupdate_ne hk]
  · have hkey : pyStrip (strLower c.company) = "" := by
      have : ¬(ddKey c ≠ "") := by simpa [ddValid] using hv
      simpa [ddKey] using this
    rw [if_pos hkey]

theorem dedupStep_lookup_self {c : Rec} (hv : ddValid c = true)
    (st : List (String × Rec)) :
    alookup (ddKey c) (dedupStep st c) =
      dedupUpd (alookup (ddKey c) st) c := by
  unfold dedupStep
  have hkey : ¬(pyStrip (strLower c.company) = "") := by
    simpa [ddValid, ddKey] using hv
  rw [if_neg hkey]
  show alookup (ddKey c)
      (match alookup (ddKey c) st with
       | none => st ++ [(ddKey c, c)]
       | some _ => aupdate (ddKey c) (fun e => collideRec e c) st) = _
  cases hl : alookup (ddKey c) st with
  | none =>
    simp only [hl]
    rw [alookup_append_of_none hl, if_pos rfl]
    rfl
  | some e =>
    simp only [hl]
    rw [alookup_aupdate_self, hl]
    rfl

theorem lookup_foldl_dedupStep (k : String) (l : List Rec) :
    ∀ st, alookup k (l.foldl dedupStep st) =
      (drecsFor k l).foldl dedupUpd (alookup k st) := by
  induction l with
  | nil => intro st; rfl
  | cons c l' ih =>
    intro st
    by_cases h : ddValid c = true ∧ ddKey c = k
    · obtain ⟨hv, hk⟩ := h
      have hstep := dedupStep_lookup_self hv st
      rw [hk] at hstep
      simp only [List.foldl_cons, ih (dedupStep st c), hstep, drecsFor,
        List.filter_cons, hv, hk, beq_self_eq_true, Bool.and_self, if_true]
    · have hstep := dedupStep_lookup_ne h st
      have hfil : (drecsFor k (c :: l')) = drecsFor k l' := by
        simp only [drecsFor, List.filter_cons]
        have : ¬(ddValid c && (ddKey c == k)) = true := by
          intro hb
          simp only [Bool.and_eq_true, beq_iff_eq] at hb
          exact h hb
        simp [this]
      simp only [List.foldl_cons, ih (dedupStep st c), hstep, hfil]

/-- The collapsed record of a key whose admitted records are `r :: rs`. -/
def collapseOf (r : Rec) (rs : List Rec) : Rec := rs.foldl collideRec r

theorem foldl_dedupUpd_some (rs : List Rec) (e : Rec) :
    rs.foldl dedupUpd (some e) = some (rs.foldl collideRec e) := by
  induction rs generalizing e with
  | nil => rfl
  | cons c rs ih => simp [dedupUpd, ih]

theorem lookup_dedupState_nil {k : String} {l : List Rec}
    (h : drecsFor k l = []) : alookup k (dedupState l) = none := by
  have := lookup_foldl_dedupStep k l []
  simpa [dedupState, h, alookup] using this

theorem lookup_dedupState_cons {k : String} {l : List Rec} {r : Rec}
    {rs : List Rec} (h : drecsFor k l = r :: rs) :
    alookup k (dedupState l) = some (collapseOf r rs) := by
  have := lookup_foldl_dedupStep k l []
  rw [dedupState, this, h]
  show (r :: rs).foldl dedupUpd none = some (collapseOf r rs)
  simp only [List.foldl_cons]
  show rs.foldl dedupUpd (some r) = _
  rw [foldl_dedupUpd_some]
  rfl

/-! ## Field-wise behavior of the collapse fold -/

theorem collideRec_confidence (e c : Rec) :
    (collideRec e c).confidence = max e.confidence c.confidence := rfl

theorem collideRec_team_size (e c : Rec) :
    (collideRec e c).team_size =
      if tsTruthy c.team_size then pymaxTS e.team_size c.team_size
      else e.team_size := rfl

theorem collideRec_keeps (e c : Rec) :
    (collideRec e c).company = e.company ∧
    (collideRec e c).source_pdf = e.source_pdf ∧
    (collideRec e c).role = e.role ∧
    (collideRec e c).contact_name = e.contact_name ∧
    (collideRec e c).contact_title = e.contact_title ∧
    (collideRec e c).source_page = e.source_page :=
  ⟨rfl, rfl, rfl, rfl, rfl, rfl⟩

theorem collapseOf_confidence (r : Rec) (rs : List Rec) :
    (collapseOf r rs).confidence =
      rs.foldl (fun a q => max a q.confidence) r.confidence := by
  unfold collapseOf
  induction rs generalizing r with
  | nil => rfl
  | cons c rs ih => simp [ih, collideRec_confidence]

theorem collapseOf_source_page (r : Rec) (rs : List Rec) :
    (collapseOf r rs).source_page = r.source_page := by
  unfold collapseOf
  induction rs generalizing r with
  | nil => rfl
  | cons c rs ih =>
    simp only [List.foldl_cons]
    rw [ih (collideRec r c)]
    exact (collideRec_keeps r c).2.2.2.2.2

theorem collideRec_flags_mem (e c : Rec) (x : String) :
    x ∈ (collideRec e c).flags ↔ x ∈ e.flags ∨ x ∈ c.flags := by
  show x ∈ sortStrs (dedupList (e.flags ++ c.flags)) ↔ _
  rw [mem_sortStrs, mem_dedupList, List.mem_append]

theorem collapseOf_flags_mem (r : Rec) (rs : List Rec) (x : String) :
    x ∈ (collapseOf r rs).flags ↔ ∃ q ∈ r :: rs, x ∈ q.flags := by
  unfold collapseOf
  induction rs generalizing r with
  | nil => simp
  | cons c rs ih =>
    simp only [List.foldl_cons]
    rw [ih (collideRec r c)]
    constructor
    · rintro ⟨q, hq, hx⟩
      rcases List.mem_cons.mp hq with rfl | hq'
      · rcases (collideRec_flags_mem r c x).mp hx with h | h
        · exact ⟨r, by simp, h⟩
        · exact ⟨c, by simp, h⟩
      · exact ⟨q, by simp [hq'], hx⟩
    · rintro ⟨q, hq, hx⟩
      rcases List.mem_cons.mp hq with rfl | hq'
      · exact ⟨collideRec q c, by simp,
          (collideRec_flags_mem q c x).mpr (Or.inl hx)⟩
      · rcases List.mem_cons.mp hq' with rfl | hq''
        · exact ⟨collideRec r q, by simp,
            (collideRec_flags_mem r q x).mpr (Or.inr hx)⟩
        · exact ⟨q, by simp [hq''], hx⟩

theorem foldl_collideRec_team_size (rs : List Rec) (e : Rec)
    (hok : ∀ q ∈ rs, tsOK q)
    (he : e.team_size = none ∨ ∃ n : Nat, e.team_size = some (n + 1)) :
    (rs.foldl collideRec e).team_size = rs.foldl knownMaxTS e.team_size := by
  induction rs generalizing e with
  | nil => rfl
  | cons c rs ih =>
    have hokc : tsOK c := hok c (by simp)
    have hokr : ∀ q ∈ rs, tsOK q := fun q hq => hok q (by simp [hq])
    simp only [List.foldl_cons]
    cases hts : c.team_size with
    | none =>
      have h1 : (collideRec e c).team_size = e.team_size := by
        simp [collideRec_team_size, hts, tsTruthy]
      have h2 : knownMaxTS e.team_size c = e.team_size := by
        simp [knownMaxTS, hts, tsTruthy]
      rw [ih (collideRec e c) hokr (h1 ▸ he), h1, h2]
    | some n =>
      cases n with
      | zero => exact absurd hts hokc
      | succ n =>
        have htr : tsTruthy c.team_size = true := by simp [hts, tsTruthy]
        have h1 : (collideRec e c).team_size =
            some (max ((e.team_size).getD 0) (n + 1)) := by
          rw [collideRec_team_size, if_pos htr]
          simp only [pymaxTS, hts, Option.getD_some]
          have hne : max ((e.team_size).getD 0) (n + 1) ≠ 0 := by omega
          simp [hne]
        have h2 : knownMaxTS e.team_size c =
            some (max ((e.team_size).getD 0) (n + 1)) := by
          unfold knownMaxTS
          rw [if_pos htr, hts]
          simp
        have harg : (collideRec e c).team_size = none ∨
            ∃ m : Nat, (collideRec e c).team_size = some (m + 1) := by
          refine Or.inr ⟨max ((e.team_size).getD 0) (n + 1) - 1, ?_⟩
          rw [h1]
          congr 1
          omega
        rw [ih (collideRec e c) hokr harg, h1, h2]

theorem collapseOf_team_size (r : Rec) (rs : List Rec)
    (hok : ∀ q ∈ r :: rs, tsOK q) :
    (collapseOf r rs).team_size = (r :: rs).foldl knownMaxTS none := by
  have hokr : tsOK r := hok r (by simp)
  have hokrs : ∀ q ∈ rs, tsOK q := fun q hq => hok q (by simp [hq])
  unfold collapseOf
  simp only [List.foldl_cons]
  cases hts : r.team_size with
  | none =>
    have h2 : knownMaxTS none r = none := by simp [knownMaxTS, hts, tsTruthy]
    rw [foldl_collideRec_team_size rs r hokrs (Or.inl hts), hts, h2]
  | some n =>
    cases n with
    | zero => exact absurd hts hokr
    | succ n =>
      have htr : tsTruthy r.team_size = true := by simp [hts, tsTruthy]
      have h2 : knownMaxTS none r = some (n + 1) := by
        unfold knownMaxTS
        rw [if_pos htr, hts]
        simp
      rw [foldl_collideRec_team_size rs r hokrs (Or.inr ⟨n, hts⟩), hts, h2]

/-! ## Membership in the deduplicated output -/

theorem alookup_of_mem_nodup {st : List (String × α)}
    (hn : (st.map Prod.fst).Nodup) {k : String} {v : α}
    (hm : (k, v) ∈ st) : alookup k st = some v := by
  induction st with
  | nil => simp at hm
  | cons p rest ih =>
    obtain ⟨a, b⟩ := p
    simp only [List.map_cons, List.nodup_cons] at hn
    rcases List.mem_cons.mp hm with h | h
    · injection h with h1 h2
      subst h1; subst h2
      simp [alookup]
    · have hak : a ≠ k := by
        intro rfl'
        subst rfl'
        exact hn.1 (List.mem_map.mpr ⟨(a, v), h, rfl⟩)
      simp only [alookup, if_neg hak]
      exact ih hn.2 h

theorem dedupStep_keys_nodup {st : List (String × Rec)}
    (h : (st.map Prod.fst).Nodup) (c : Rec) :
    ((dedupStep st c).map Prod.fst).Nodup := by
  unfold dedupStep
  by_cases hkey : pyStrip (strLower c.company) = ""
  · rw [if_pos hkey]
    exact h
  · rw [if_neg hkey]
    cases hl : alookup (pyStrip (strLower c.company)) st with
    | none =>
      simp only [hl, List.map_append]
      rw [List.nodup_append]
      refine ⟨h, by simp, ?_⟩
      intro a ha hb
      simp at hb
      subst hb
      exact ((alookup_eq_none_iff _ st).mp hl) ha
    | some e =>
      simp only [hl]
      rw [aupdate_map_fst]
      exact h

theorem dedupState_keys_nodup (l : List Rec) :
    ((dedupState l).map Prod.fst).Nodup := by
  have main : ∀ st : List (String × Rec), (st.map Prod.fst).Nodup →
      ((l.foldl dedupStep st).map Prod.fst).Nodup := by
    induction l with
    | nil => intro st h; exact h
    | cons c l' ih =>
      intro st h
      rw [List.foldl_cons]
      apply ih
      exact dedupStep_keys_nodup h c
  unfold dedupState
  exact main [] (by simp)

/-- Every output row of `deduplicate_companies` is the collapse of the
admitted records of some key. -/
theorem mem_deduplicate_companies {l : List Rec} {v : Rec}
    (h : v ∈ deduplicate_companies l) :
    ∃ k r rs, drecsFor k l = r :: rs ∧ v = collapseOf r rs := by
  unfold deduplicate_companies at h
  obtain ⟨⟨k, v'⟩, hm, hv⟩ := List.mem_map.mp h
  simp only at hv
  subst hv
  have hl : alookup k (dedupState l) = some v' :=
    alookup_of_mem_nodup (dedupState_keys_nodup l) hm
  cases hdr : drecsFor k l with
  | nil => rw [lookup_dedupState_nil hdr] at hl; exact absurd hl (by simp)
  | cons r rs =>
    rw [lookup_dedupState_cons hdr] at hl
    exact ⟨k, r, rs, hdr, by injection hl with h'; exact h'.symm⟩

/-- `_dedupe_records` keeps a representative of every input key. -/
theorem dedupeRecordsAux_covers (l : List Rec)
    (seen : List (String × String × String × String)) (r : Rec)
    (hr : r ∈ l) :
    recKey4 r ∈ seen ∨
      ∃ r', r' ∈ dedupeRecordsAux seen l ∧ recKey4 r' = recKey4 r := by
  induction l generalizing seen with
  | nil => simp at hr
  | cons c cs ih =>
    rcases List.mem_cons.mp hr with rfl | hmem
    · by_cases hs : recKey4 r ∈ seen
      · exact Or.inl hs
      · refine Or.inr ⟨r, ?_, rfl⟩
        unfold dedupeRecordsAux
        rw [if_neg hs]
        exact List.mem_cons_self _ _
    · by_cases hs : recKey4 c ∈ seen
      · rcases ih seen hmem with h | ⟨r', hr', hk⟩
        · exact Or.inl h
        · refine Or.inr ⟨r', ?_, hk⟩
          unfold dedupeRecordsAux
          rw [if_pos hs]
          exact hr'
      · rcases ih (recKey4 c :: seen) hmem with h | ⟨r', hr', hk⟩
        · rcases List.mem_cons.mp h with heq | hseen
          · refine Or.inr ⟨c, ?_, heq.symm⟩
            unfold dedupeRecordsAux
            rw [if_neg hs]
            exact List.mem_cons_self _ _
          · exact Or.inl hseen
        · refine Or.inr ⟨r', ?_, hk⟩
          unfold dedupeRecordsAux
          rw [if_neg hs]
          exact List.mem_cons_of_mem _ hr'

theorem dedupe_records_covers (l : List Rec) (r : Rec) (hr : r ∈ l) :
    ∃ r', r' ∈ dedupe_records l ∧ recKey4 r' = recKey4 r := by
  rcases dedupeRecordsAux_covers l [] r hr with h | h
  · simp at h
  · exact h

/-! ## Source-page helper lemmas -/

theorem attendeeEmit_source_page {pdfName : String} {pageIdx : Nat}
    {company : String} {ts conf : Nat} {r : Rec}
    (h : attendeeEmit pdfName pageIdx company ts conf = some r) :
    r.source_page = some (pageIdx + 1) := by
  unfold attendeeEmit at h
  repeat' split at h
  all_goals injection h
  all_goals subst r
  all_goals rfl

theorem attendeeLineCore_source_page {pdfName : String} {pageIdx : Nat}
    {line : String} {r : Rec}
    (h : attendeeLineCore pdfName pageIdx line = some r) :
    r.source_page = some (pageIdx + 1) := by
  unfold attendeeLineCore at h
  repeat' split at h
  all_goals first
    | exact attendeeEmit_source_page h
    | injection h

theorem processAttendeeLine_source_page {pdfName : String} {pageIdx : Nat}
    {raw : String} {r : Rec}
    (h : processAttendeeLine pdfName pageIdx raw = some r) :
    r.source_page = some (pageIdx + 1) :=
  attendeeLineCore_source_page h

theorem processCard_source_page {pdfName : String} {pageIdx : Nat}
    {items : List (String × String)} {r : Rec}
    (h : processCard pdfName pageIdx items = some r) :
    r.source_page = some (pageIdx + 1) := by
  unfold processCard at h
  try simp only [] at h
  repeat' split at h
  all_goals injection h
  all_goals subst r
  all_goals rfl

theorem scheduleEmit_source_page {pdfName : String} {pageIdx : Nat}
    {name company title : String} {r : Rec}
    (h : scheduleEmit pdfName pageIdx name company title = some r) :
    r.source_page = some (pageIdx + 1) := by
  unfold scheduleEmit at h
  repeat' split at h
  all_goals injection h
  all_goals subst r
  all_goals rfl

theorem scheduleLineCore_source_page {pdfName : String} {pageIdx : Nat}
    {line : String} {r : Rec}
    (h : scheduleLineCore pdfName pageIdx line = some r) :
    r.source_page = some (pageIdx + 1) := by
  unfold scheduleLineCore at h
  repeat' split at h
  all_goals first
    | exact scheduleEmit_source_page h
    | injection h

theorem processScheduleLine_source_page {pdfName : String} {pageIdx : Nat}
    {raw : String} {r : Rec}
    (h : processScheduleLine pdfName pageIdx raw = some r) :
    r.source_page = some (pageIdx + 1) :=
  scheduleLineCore_source_page h

theorem fallbackLine_source_page {pdfName : String} {ln : String} {r : Rec}
    (h : fallbackLine pdfName ln = some r) : r.source_page = none := by
  unfold fallbackLine at h
  try simp only [] at h
  repeat' split at h
  all_goals injection h
  all_goals subst r
  all_goals rfl

/-! ## Claim C2: attendee-page gating -/

/-- A page with no `"team of"` occurrence at all but 40 structural blocks:
the extractor still emits a record from it, because the code skips a page
only when the `"team of"` count AND the block count are both below their
thresholds. -/
def c2Page : AttendeePage :=
  { pageText := "", blocks := List.replicate 39 "." ++ ["Acme Robotics"] }

unseal pyws strLower strUpper splitChars splitStr startsWithL endsWithL
  norm stripChars pyStrip strip_new_tag subAmp clean_company_name
  personWordOk is_person_name isNumericPercent is_valid_company_name hasSub
  strContains countOcc is_header_footer teamOfSuffix matchTeamOfAux
  matchTeamOf idxOfChar lastIdxOfChar attendeeLineKw cardKw is_company_font in
/-- C2 counterexample: the claim requires BOTH thresholds (`"team of"` count
at least 5 AND at least 40 blocks) for any record to be emitted, but this
page has `"team of"` count 0 — far below 5 — and still yields a record. -/
theorem C2_counterexample :
    countOcc "team of".data (strLower c2Page.pageText).data = 0 ∧
    c2Page.blocks.length = 40 ∧
    attendeePageRecs "att.pdf" 0 c2Page ≠ [] := by
  refine ⟨rfl, by decide, ?_⟩
  intro h
  have : (attendeePageRecs "att.pdf" 0 c2Page).length = 1 := by decide
  rw [h] at this
  simp at this

/-- C2 amended: a page is skipped exactly when its `"team of"` count is
below 5 AND its block count is below 40 (so pages qualify by an OR of the
two thresholds, not an AND); in particular a page failing both thresholds
emits no attendee records. -/
theorem C2_amended (pdfName : String) (pageIdx : Nat) (pg : AttendeePage)
    (h1 : countOcc "team of".data (strLower pg.pageText).data < 5)
    (h2 : pg.blocks.length < 40) :
    attendeePageRecs pdfName pageIdx pg = [] := by
  unfold attendeePageRecs
  have hb : (decide (countOcc "team of".data (strLower pg.pageText).data < 5) &&
      decide (pg.blocks.length < 40)) = true := by
    simp [h1, h2]
  simp only [hb, if_true]

unseal pyws strLower strUpper splitChars splitStr startsWithL endsWithL
  norm stripChars pyStrip strip_new_tag subAmp clean_company_name
  personWordOk is_person_name isNumericPercent is_valid_company_name hasSub
  strContains countOcc is_header_footer teamOfSuffix matchTeamOfAux
  matchTeamOf idxOfChar lastIdxOfChar attendeeLineKw cardKw is_company_font in
/-- C2 witness: the spec scenario — a page with exactly 2 occurrences of
"team of" and 10 blocks produces no records. -/
theorem C2_witness :
    countOcc "team of".data
      (strLower (AttendeePage.mk "... team of ... team of ..."
        (List.replicate 10 "block")).pageText).data = 2 ∧
    (AttendeePage.mk "... team of ... team of ..."
      (List.replicate 10 "block")).blocks.length = 10 ∧
    attendeePageRecs "att.pdf" 0
      (AttendeePage.mk "... team of ... team of ..."
        (List.replicate 10 "block")) = [] :=
  ⟨by decide, by decide,
    C2_amended "att.pdf" 0 _ (by decide) (by decide)⟩

/-! ## Claim C7: attendee-line record shapes -/

/-- An 85-character non-matching line: it passes `is_valid_company_name`
(bound 90) but the extractor drops it (bound 80). -/
def c7Long : String := ⟨List.replicate 85 'b'⟩

unseal pyws strLower strUpper splitChars splitStr startsWithL endsWithL
  norm stripChars pyStrip strip_new_tag subAmp clean_company_name
  personWordOk is_person_name isNumericPercent is_valid_company_name hasSub
  strContains countOcc is_header_footer teamOfSuffix matchTeamOfAux
  matchTeamOf idxOfChar lastIdxOfChar attendeeLineKw cardKw is_company_font in
/-- C7 counterexample: the claim says a matching line always yields a
`team_size=N`, `confidence=0.95` record, but `"A (Team of 4)"` matches and
yields nothing (the cleaned company `"A"` fails the length check the code
applies after the match); and the claim says any non-matching line passing
`is_valid_company_name` yields a record, but an 85-character line passes
`is_valid_company_name` and yields nothing. -/
theorem C7_counterexample :
    matchTeamOf "A (Team of 4)" = some ("A", 4) ∧
    processAttendeeLine "att.pdf" 0 "A (Team of 4)" = none ∧
    is_valid_company_name c7Long = true ∧
    matchTeamOf c7Long = none ∧
    processAttendeeLine "att.pdf" 0 c7Long = none := by
  refine ⟨by decide, by decide, by decide, by decide, by decide⟩

/-- C7 amended: for every admitted line, on a `(Team of N)` match the
extractor emits a `team_size=N`, `confidence=0.95` attendee record provided
the cleaned company prefix is 2–80 characters and not numeric/percent; on a
non-match it emits a `team_size=1`, `confidence=0.90` attendee record under
the same post-checks on the cleaned line (the code checks these bounds
itself rather than calling `is_valid_company_name`, whose upper bound 90
differs). -/
theorem attendeeEmit_eq_some (pdfName : String) (pageIdx : Nat)
    (company : String) (ts conf : Nat)
    (hnum : isNumericPercent company = false)
    (hlo : 2 ≤ company.length) (hhi : company.length ≤ 80) :
    attendeeEmit pdfName pageIdx company ts conf =
      some { company := company, source_pdf := some pdfName,
             role := some "attendee", contact_name := none,
             contact_title := none, team_size := some ts,
             confidence := conf, flags := [],
             source_page := some (pageIdx + 1) } := by
  unfold attendeeEmit
  have hlen : (decide (company.length < 2) ||
      decide (company.length > 80)) = false := by
    simp only [Bool.or_eq_false_iff, decide_eq_false_iff_not]
    omega
  rw [hnum, hlen]
  rfl

theorem C7_amended (pdfName : String) (pageIdx : Nat) (raw : String)
    (hnorm : ¬(norm raw = ""))
    (hhf : is_header_footer (norm raw) = false)
    (hkw : attendeeLineKw (strLower (norm raw)) = false) :
    (∀ pre n, matchTeamOf (norm raw) = some (pre, n) →
      isNumericPercent (clean_company_name pre) = false →
      2 ≤ (clean_company_name pre).length →
      (clean_company_name pre).length ≤ 80 →
      processAttendeeLine pdfName pageIdx raw =
        some { company := clean_company_name pre, source_pdf := some pdfName,
               role := some "attendee", contact_name := none,
               contact_title := none, team_size := some n,
               confidence := 95, flags := [],
               source_page := some (pageIdx + 1) }) ∧
    (matchTeamOf (norm raw) = none →
      isNumericPercent (clean_company_name (norm raw)) = false →
      2 ≤ (clean_company_name (norm raw)).length →
      (clean_company_name (norm raw)).length ≤ 80 →
      processAttendeeLine pdfName pageIdx raw =
        some { company := clean_company_name (norm raw),
               source_pdf := some pdfName,
               role := some "attendee", contact_name := none,
               contact_title := none, team_size := some 1,
               confidence := 90, flags := [],
               source_page := some (pageIdx + 1) }) := by
  unfold processAttendeeLine attendeeLineCore
  obtain ⟨L, hL⟩ : ∃ L, norm raw = L := ⟨_, rfl⟩
  rw [hL] at hnorm hhf hkw ⊢
  have hadm : (decide (L = "") || is_header_footer L) = false := by
    simp [hnorm, hhf]
  constructor
  · intro pre n hm hnum hlo hhi
    rw [hadm, hkw, hm]
    exact attendeeEmit_eq_some pdfName pageIdx (clean_company_name pre)
      n 95 hnum hlo hhi
  · intro hm hnum hlo hhi
    rw [hadm, hkw, hm]
    exact attendeeEmit_eq_some pdfName pageIdx (clean_company_name L)
      1 90 hnum hlo hhi

unseal pyws strLower strUpper splitChars splitStr startsWithL endsWithL
  norm stripChars pyStrip strip_new_tag subAmp clean_company_name
  personWordOk is_person_name isNumericPercent is_valid_company_name hasSub
  strContains countOcc is_header_footer teamOfSuffix matchTeamOfAux
  matchTeamOf idxOfChar lastIdxOfChar attendeeLineKw cardKw is_company_font in
/-- C7 witness: the spec scenario line `"Acme Robotics (Team of 4)"` gives
exactly the scenario record. -/
theorem C7_witness :
    processAttendeeLine "att.pdf" 0 "Acme Robotics (Team of 4)" =
      some { company := "Acme Robotics", source_pdf := some "att.pdf",
             role := some "attendee", contact_name := none,
             contact_title := none, team_size := some 4,
             confidence := 95, flags := [], source_page := some 1 } := by
  have h := (C7_amended "att.pdf" 0 "Acme Robotics (Team of 4)"
    (by decide) (by decide) (by decide)).1 "Acme Robotics" 4
    (by decide) (by decide) (by decide) (by decide)
  rw [h]
  decide

/-! ## Claim C9: stable output shape of the reconciler -/

/-- C9 (confirmed): every profile produced by `merge_all_companies` carries
exactly the output fields of the `Out` structure (`company`, `team_size`,
`confidence`, `flags`, `contacts`, `source_pdf`, `role`, `contact_name`,
`contact_title` — the keys written in lines 490–506), and the flattened
`contact_name`/`contact_title` equal the name and title of the first entry
of `contacts`, `none` when `contacts` is empty. -/
theorem C9 (l : List Rec) (o : Out) (ho : o ∈ merge_all_companies l) :
    o.contact_name = (o.contacts.head?).map (fun ct => ct.name) ∧
    o.contact_title = (o.contacts.head?).bind (fun ct => ct.title) := by
  unfold merge_all_companies at ho
  obtain ⟨⟨k, m⟩, hm, rfl⟩ := List.mem_map.mp ho
  exact ⟨rfl, rfl⟩

unseal pyws strLower strUpper splitChars splitStr startsWithL endsWithL
  norm stripChars pyStrip strip_new_tag subAmp clean_company_name
  personWordOk is_person_name isNumericPercent is_valid_company_name hasSub
  strContains countOcc is_header_footer teamOfSuffix matchTeamOfAux
  matchTeamOf idxOfChar lastIdxOfChar attendeeLineKw cardKw is_company_font in
/-- C9 witness: a concrete merged profile, with the flattened fields
mirroring the single contact. -/
theorem C9_witness :
    (Out.mk "Acme" none 90 [] [⟨"Jane Doe", some "VP", some "a.pdf"⟩]
        "a.pdf" "speaker" (some "Jane Doe") (some "VP")).contact_name =
      ((Out.mk "Acme" none 90 [] [⟨"Jane Doe", some "VP", some "a.pdf"⟩]
        "a.pdf" "speaker" (some "Jane Doe") (some "VP")).contacts.head?).map
          (fun ct => ct.name) ∧
    (Out.mk "Acme" none 90 [] [⟨"Jane Doe", some "VP", some "a.pdf"⟩]
        "a.pdf" "speaker" (some "Jane Doe") (some "VP")).contact_title =
      ((Out.mk "Acme" none 90 [] [⟨"Jane Doe", some "VP", some "a.pdf"⟩]
        "a.pdf" "speaker" (some "Jane Doe") (some "VP")).contacts.head?).bind
          (fun ct => ct.title) :=
  C9 [{ company := "Acme", source_pdf := some "a.pdf",
        role := some "speaker", contact_name := some "Jane Doe",
        contact_title := some "VP", confidence := 90 }] _ (by decide)

/-! ## Claim C10: source-page provenance -/

/-- C10 (confirmed): every record emitted by the attendee-list,
speaker-lineup and schedule-line extractors carries
`source_page = pageIdx + 1` (the 1-based page index), while every record
produced by the fallback extractor `parse_text_fallback` carries no
source-page value at all (modelled as `none`). -/
theorem C10 :
    (∀ (pdfName : String) (pageIdx : Nat) (pg : AttendeePage) (r : Rec),
      r ∈ attendeePageRecs pdfName pageIdx pg →
        r.source_page = some (pageIdx + 1)) ∧
    (∀ (pdfName : String) (pageIdx : Nat) (pageText : String)
       (blocks : List (List (String × String))) (r : Rec),
      r ∈ speakerPageRecs pdfName pageIdx pageText blocks →
        r.source_page = some (pageIdx + 1)) ∧
    (∀ (pdfName : String) (pageIdx : Nat) (pageText : String) (r : Rec),
      r ∈ schedulePageRecs pdfName pageIdx pageText →
        r.source_page = some (pageIdx + 1)) ∧
    (∀ (pdfName text : String) (r : Rec),
      r ∈ parse_text_fallback pdfName text → r.source_page = none) := by
  refine ⟨?_, ?_, ?_, ?_⟩
  · intro pdfName pageIdx pg r hr
    unfold attendeePageRecs at hr
    simp only [] at hr
    split at hr
    · simp at hr
    · obtain ⟨blockText, _, hb⟩ := List.mem_flatMap.mp hr
      split at hb
      · simp at hb
      · obtain ⟨raw, _, hline⟩ := List.mem_filterMap.mp hb
        exact processAttendeeLine_source_page hline
  · intro pdfName pageIdx pageText blocks r hr
    unfold speakerPageRecs at hr
    split at hr
    · simp at hr
    · obtain ⟨items, _, hcard⟩ := List.mem_filterMap.mp hr
      exact processCard_source_page hcard
  · intro pdfName pageIdx pageText r hr
    unfold schedulePageRecs at hr
    split at hr
    · simp at hr
    · obtain ⟨raw, _, hline⟩ := List.mem_filterMap.mp hr
      exact processScheduleLine_source_page hline
  · intro pdfName text r hr
    unfold parse_text_fallback at hr
    obtain ⟨k, r₀, rs, hdr, rfl⟩ := mem_deduplicate_companies hr
    have hr₀ : r₀ ∈ (((splitStr (fun c => c = '\n') text).map pyStrip).filter
        (fun l => l ≠ "")).filterMap (fallbackLine pdfName) := by
      have : r₀ ∈ drecsFor k ((((splitStr (fun c => c = '\n') text).map
          pyStrip).filter (fun l => l ≠ "")).filterMap (fallbackLine pdfName)) := by
        rw [hdr]
        exact List.mem_cons_self _ _
      exact List.mem_of_mem_filter this
    obtain ⟨ln, _, hline⟩ := List.mem_filterMap.mp hr₀
    rw [collapseOf_source_page]
    exact fallbackLine_source_page hline

unseal pyws strLower strUpper splitChars splitStr startsWithL endsWithL
  norm stripChars pyStrip strip_new_tag subAmp clean_company_name
  personWordOk is_person_name isNumericPercent is_valid_company_name hasSub
  strContains countOcc is_header_footer teamOfSuffix matchTeamOfAux
  matchTeamOf idxOfChar lastIdxOfChar attendeeLineKw cardKw is_company_font in
/-- C10 witness: one concrete record per extractor — attendee page 2,
speaker card page 1, schedule page 4, and a fallback record with no
source page. -/
theorem C10_witness :
    (Rec.mk "Acme Robotics" (some "att.pdf") (some "attendee") none none
        (some 4) 95 [] (some 2)).source_page = some (1 + 1) ∧
    (Rec.mk "Acme Robotics" (some "agenda.pdf") (some "speaker")
        (some "Jane Doe") (some "VP of Support") none 90 []
        (some 1)).source_page = some (0 + 1) ∧
    (Rec.mk "Acme Robotics" (some "agenda.pdf") (some "speaker")
        (some "Jane Doe") (some "VP of Support") none 75
        ["schedule_line_parse"] (some 4)).source_page = some (3 + 1) ∧
    (Rec.mk "Acme Robotics" (some "mix.pdf") (some "attendee") none none
        (some 3) 85 ["fallback_team_size"] none).source_page = none :=
  ⟨C10.1 "att.pdf" 1
     ⟨"team of team of team of team of team of", ["Acme Robotics (Team of 4)"]⟩
     _ (by decide),
   C10.2.1 "agenda.pdf" 0 "SPEAKER LINEUP"
     [[("Jane Doe", "F-Medium"), ("VP of Support", "F-Light"),
       ("Acme Robotics", "F-Bold")]] _ (by decide),
   C10.2.2.1 "agenda.pdf" 3 "AGENDA\nJane Doe, VP of Support, Acme Robotics"
     _ (by decide),
   C10.2.2.2 "mix.pdf" "Acme Robotics (Team of 3)" _ (by decide)⟩

/-! ## Claim C3: the canonical merge key -/

unseal pyws strLower strUpper splitChars splitStr startsWithL endsWithL
  norm stripChars pyStrip strip_new_tag subAmp clean_company_name
  personWordOk is_person_name isNumericPercent is_valid_company_name hasSub
  strContains countOcc is_header_footer teamOfSuffix matchTeamOfAux
  matchTeamOf idxOfChar lastIdxOfChar attendeeLineKw cardKw is_company_font in
/-- C3 counterexample: `clean_company_name` performs no legal-suffix
stripping — `"Acme, Inc."` cleans to itself — so two records whose company
strings differ only by the trailing `", Inc."` suffix are NOT merged: the
reconciler produces two separate profiles. -/
theorem C3_counterexample :
    clean_company_name "Acme, Inc." = "Acme, Inc." ∧
    (merge_all_companies
        [({ company := "Acme", confidence := 90 } : Rec),
         ({ company := "Acme, Inc.", confidence := 90 } : Rec)]).map
      (fun o => o.company) = ["Acme", "Acme, Inc."] := by
  exact ⟨by decide, by decide⟩

/-- C3 amended: the canonical key under which `merge_all_companies`
deduplicates is the lowercased cleaned company string (`clean_company_name`:
NEW-tag stripping, space/comma trimming, ampersand spacing, whitespace
collapsing), with NO legal-suffix stripping; two records merge into one
profile exactly when these keys agree, so suffix variants such as
`"Acme"` vs `"Acme, Inc."` stay separate. -/
theorem C3_amended (r1 r2 : Rec) (h1 : validRec r1 = true)
    (h2 : validRec r2 = true) :
    recMergeKey r1 = strLower (clean_company_name r1.company) ∧
    (merge_all_companies [r1, r2]).length =
      (if recMergeKey r1 = recMergeKey r2 then 1 else 2) := by
  refine ⟨rfl, ?_⟩
  unfold merge_all_companies mergeState
  have hv1 : (!validRec r1) = false := by simp [h1]
  have hv2 : (!validRec r2) = false := by simp [h2]
  have e1 : mergeStep [] r1 =
      [(recMergeKey r1, updateProfile (initProfile (recClean r1) r1) r1)] := by
    unfold mergeStep
    rw [hv1]
    simp [alookup, aupdate]
  simp only [List.foldl_cons, List.foldl_nil, e1]
  by_cases hk : recMergeKey r1 = recMergeKey r2
  · rw [if_pos hk]
    unfold mergeStep
    rw [hv2]
    simp only [Bool.false_eq_true, if_false, alookup, hk, if_pos rfl]
    simp [aupdate]
  · rw [if_neg hk]
    unfold mergeStep
    rw [hv2]
    simp only [Bool.false_eq_true, if_false, alookup, hk, if_neg hk]
    simp [aupdate, hk]

unseal pyws strLower strUpper splitChars splitStr startsWithL endsWithL
  norm stripChars pyStrip strip_new_tag subAmp clean_company_name
  personWordOk is_person_name isNumericPercent is_valid_company_name hasSub
  strContains countOcc is_header_footer teamOfSuffix matchTeamOfAux
  matchTeamOf idxOfChar lastIdxOfChar attendeeLineKw cardKw is_company_font in
/-- C3 witness: case-variants merge into one profile; a `", Inc."` suffix
variant stays a second profile. -/
theorem C3_witness :
    (merge_all_companies
        [({ company := "ACME", confidence := 90 } : Rec),
         ({ company := "Acme", confidence := 90 } : Rec)]).length = 1 ∧
    (merge_all_companies
        [({ company := "Acme", confidence := 90 } : Rec),
         ({ company := "Acme, Inc.", confidence := 90 } : Rec)]).length = 2 :=
  ⟨((C3_amended ({ company := "ACME", confidence := 90 } : Rec)
      ({ company := "Acme", confidence := 90 } : Rec)
      (by decide) (by decide)).2).trans (by decide),
   ((C3_amended ({ company := "Acme", confidence := 90 } : Rec)
      ({ company := "Acme, Inc.", confidence := 90 } : Rec)
      (by decide) (by decide)).2).trans (by decide)⟩

/-! ## Claim C4: monotonicity of confidence and team size -/

/-- C4 (confirmed): merging a record into a profile never lowers the
confidence (it becomes the max with the record's), never lowers a known
team size, never lets a `none` team size overwrite a known one, and over a
full key group with well-formed (absent-or-positive) team sizes the final
team size is the running maximum over the known values. -/
theorem C4 (m : MProfile) (c : Rec) :
    m.confidence ≤ (updateProfile m c).confidence ∧
    (∀ n, m.team_size = some n →
      ∃ n', (updateProfile m c).team_size = some n' ∧ n ≤ n') ∧
    (c.team_size = none → (updateProfile m c).team_size = m.team_size) ∧
    (∀ (r : Rec) (rs : List Rec), (∀ q ∈ r :: rs, tsOK q) →
      (profileOf r rs).team_size = (r :: rs).foldl knownMaxTS none) := by
  refine ⟨?_, ?_, ?_, ?_⟩
  · rw [updateProfile_confidence]
    exact le_max_left _ _
  · intro n hn
    rw [updateProfile_team_size]
    by_cases ht : tsTruthy c.team_size = true
    · rw [if_pos ht]
      cases hts : c.team_size with
      | none => rw [hts] at ht; exact absurd ht (by simp [tsTruthy])
      | some u =>
        cases u with
        | zero => rw [hts] at ht; exact absurd ht (by simp [tsTruthy])
        | succ u =>
          refine ⟨max n (u + 1), ?_, le_max_left _ _⟩
          unfold pymaxTS
          rw [hn]
          have hne : max n (u + 1) ≠ 0 := by omega
          simp [hne]
    · rw [if_neg ht]
      exact ⟨n, hn, le_refl n⟩
  · intro hc
    rw [updateProfile_team_size, hc]
    simp [tsTruthy]
  · intro r rs hok
    exact profileOf_team_size r rs hok

/-- Witness data for C4: a profile with a known team size. -/
def c4m : MProfile := ⟨"Acme", [], [], some 2, 90, [], []⟩

/-- Witness data for C4: an incoming record with a larger team size. -/
def c4c : Rec := { company := "Acme", team_size := some 5, confidence := 95 }

/-- Witness data for C4: an incoming record with no team size. -/
def c4n : Rec := { company := "Acme", team_size := none, confidence := 80 }

/-- C4 witness: concrete monotone updates. -/
theorem C4_witness :
    c4m.confidence ≤ (updateProfile c4m c4c).confidence ∧
    (∃ n', (updateProfile c4m c4c).team_size = some n' ∧ 2 ≤ n') ∧
    (updateProfile c4m c4n).team_size = c4m.team_size ∧
    (profileOf c4c [c4n]).team_size = [c4c, c4n].foldl knownMaxTS none :=
  ⟨(C4 c4m c4c).1, (C4 c4m c4c).2.1 2 rfl, (C4 c4m c4n).2.2.1 rfl,
   (C4 c4m c4c).2.2.2 c4c [c4n] (by decide)⟩

/-! ## Claim C5: contacts are never lost and never duplicated -/

/-- C5 (confirmed): merging a record only ever appends to a profile's
contacts list (the previous list is a prefix of the new one), and in the
final profile of any key the case-insensitive (name, title) contact keys are
pairwise distinct while every admitted record with a truthy contact name has
its (name, title) key present. -/
theorem C5 :
    (∀ (m : MProfile) (c : Rec),
      ((updateProfile m c).contacts).take m.contacts.length = m.contacts) ∧
    (∀ (l : List Rec) (k : String) (p : MProfile),
      alookup k (mergeState l) = some p →
        ((p.contacts.map ckey).Nodup ∧
         ∀ r ∈ l, validRec r = true → recMergeKey r = k →
           truthyStr r.contact_name = true →
             rkeyC r ∈ p.contacts.map ckey)) := by
  constructor
  · exact updateProfile_contacts_keeps
  · intro l k p hp
    cases hdr : recsFor k l with
    | nil =>
      rw [lookup_mergeState_nil hdr] at hp
      exact absurd hp (by simp)
    | cons r rs =>
      rw [lookup_mergeState_cons hdr] at hp
      injection hp with hp'
      subst hp'
      refine ⟨profileOf_contacts_nodup r rs, ?_⟩
      intro q hq hv hk ht
      have hqin : q ∈ recsFor k l := by
        unfold recsFor
        rw [List.mem_filter]
        exact ⟨hq, by simp [hv, hk]⟩
      rw [hdr] at hqin
      exact (profileOf_contacts_mem r rs (rkeyC q)).mpr ⟨q, hqin, ht, rfl⟩

/-- Witness data for C5: a speaker record with a contact. -/
def c5r : Rec :=
  { company := "Acme Robotics", source_pdf := some "a.pdf",
    role := some "speaker", contact_name := some "Jane Doe",
    contact_title := some "VP", confidence := 90 }

/-- Witness data for C5: the profile accumulated from `c5r`. -/
def c5p : MProfile :=
  ⟨"Acme Robotics", ["a.pdf"], ["speaker"], none, 90, [],
   [⟨"Jane Doe", some "VP", some "a.pdf"⟩]⟩

unseal pyws strLower strUpper splitChars splitStr startsWithL endsWithL
  norm stripChars pyStrip strip_new_tag subAmp clean_company_name
  personWordOk is_person_name isNumericPercent is_valid_company_name hasSub
  strContains countOcc is_header_footer teamOfSuffix matchTeamOfAux
  matchTeamOf idxOfChar lastIdxOfChar attendeeLineKw cardKw is_company_font in
/-- C5 witness: concrete prefix preservation and contact accounting. -/
theorem C5_witness :
    (((updateProfile c5p c5r).contacts).take c5p.contacts.length =
      c5p.contacts) ∧
    ((c5p.contacts.map ckey).Nodup ∧
     ∀ r ∈ [c5r], validRec r = true →
       recMergeKey r = "acme robotics" →
       truthyStr r.contact_name = true →
         rkeyC r ∈ c5p.contacts.map ckey) :=
  ⟨C5.1 c5p c5r, C5.2 [c5r] "acme robotics" c5p (by decide)⟩

/-! ## Claim C6: the speaker-card algorithm -/

/-- Modelled from the claim's wording: the accepted company lines are the
maximal run of bold-family lines at the end of the card (the backward scan
stopped at the first non-bold-family line), never including the name
line. -/
def claimCompanyLines (items : List (String × String)) :
    List (String × String) :=
  (((items.drop 1).reverse).takeWhile (fun it => is_company_font it.2)).reverse

/-- Modelled from the claim's wording: the company parts — the accepted
bold-family lines, or the last line as fallback when there are none. -/
def claimCompanyParts (items : List (String × String)) : List String :=
  if claimCompanyLines items = [] then
    [strip_new_tag (((items.getLast?).getD ("", "")).1)]
  else (claimCompanyLines items).map (fun it => strip_new_tag it.1)

/-- Modelled from the claim's wording: the lines strictly between the name
line and the accepted company lines (all tail lines except the company
suffix; with the fallback, all tail lines except the last). -/
def claimTitleParts (items : List (String × String)) : List String :=
  (if claimCompanyLines items = [] then
     (items.drop 1).take (items.length - 2)
   else
     (items.drop 1).take
       ((items.drop 1).length - (claimCompanyLines items).length)).map
    (fun it => it.1)

/-- On a card without standalone `NEW` lines, the backward scan collects
exactly the maximal bold-family suffix (in original order, NEW-tag
stripped) and leaves `j` pointing just before it. -/
theorem scanBack_no_new (l : List (String × String)) (j : Nat)
    (hnew : ∀ it ∈ l, strUpper it.1 ≠ "NEW") :
    scanBack l j =
      (((l.takeWhile (fun it => is_company_font it.2)).map
          (fun it => strip_new_tag it.1)).reverse,
       j - (l.takeWhile (fun it => is_company_font it.2)).length) := by
  induction l generalizing j with
  | nil => rfl
  | cons it rest ih =>
    obtain ⟨t, f⟩ := it
    have hnt : ¬(strUpper t = "NEW") := hnew (t, f) (by simp)
    have hnr : ∀ q ∈ rest, strUpper q.1 ≠ "NEW" :=
      fun q hq => hnew q (by simp [hq])
    unfold scanBack
    rw [if_neg hnt]
    by_cases hb : is_company_font f = true
    · have hb' : (fun it : String × String => is_company_font it.2)
          (t, f) = true := hb
      rw [if_pos hb, ih (j - 1) hnr,
        @List.takeWhile_cons_of_pos (String × String)
          (fun it => is_company_font it.2) (t, f) rest hb']
      simp only [List.map_cons, List.reverse_cons, List.length_cons]
      rw [Nat.sub_sub, Nat.add_comm]
    · have hb' : ¬((fun it : String × String => is_company_font it.2)
          (t, f) = true) := hb
      rw [if_neg hb,
        @List.takeWhile_cons_of_neg (String × String)
          (fun it => is_company_font it.2) (t, f) rest hb']
      rfl

unseal pyws strLower strUpper splitChars splitStr startsWithL endsWithL
  norm stripChars pyStrip strip_new_tag subAmp clean_company_name
  personWordOk is_person_name isNumericPercent is_valid_company_name hasSub
  strContains countOcc is_header_footer teamOfSuffix matchTeamOfAux
  matchTeamOf idxOfChar lastIdxOfChar attendeeLineKw cardKw is_company_font in
/-- C6 counterexample: on the card
`["John Smith", "VP", "NEW", "Acme"]` (with only `"Acme"` bold-family) the
code's backward scan skips the standalone non-bold `"NEW"` line instead of
stopping at it, and excludes it from the title: the emitted title is
`"VP"`, while the claim's algorithm (stop at the first non-bold-family
line; title = ALL lines strictly between name and company) would stop at
`"NEW"`, take `"Acme"` as company and produce the title `"VP NEW"`. -/
theorem C6_counterexample :
    (processCard "agenda.pdf" 0
        [("John Smith", "F-Medium"), ("VP", "F-Light"),
         ("NEW", "F-Light"), ("Acme", "F-Bold")]).map
      (fun r => r.contact_title) = some (some "VP") ∧
    norm (" ".intercalate (claimTitleParts
        [("John Smith", "F-Medium"), ("VP", "F-Light"),
         ("NEW", "F-Light"), ("Acme", "F-Bold")])) = "VP NEW" ∧
    ¬((some "VP" : Option String) = some "VP NEW") := by
  refine ⟨by decide, by decide, by decide⟩

/-- C6 amended: for a card of at least 3 non-empty lines, passing the
keyword filter, and containing no standalone `NEW` marker lines (the code
additionally skips such lines in its backward scan and drops them from the
title), the speaker extractor behaves as the claim describes: a card whose
first line fails `is_person_name` yields nothing; otherwise the company is
the concatenated maximal bold-family suffix (or the last line as fallback),
the title is the concatenation of the lines strictly between the name and
the accepted company lines, and the record carries role `speaker` and the
normalized first line as contact name. -/
theorem C6_amended (pdfName : String) (pageIdx : Nat)
    (items : List (String × String)) (nameT fT : String)
    (rest : List (String × String)) (hitems : items = (nameT, fT) :: rest)
    (hlen : 3 ≤ items.length)
    (hkw : cardKw (strLower
      (" ".intercalate (items.map (fun it => it.1)))) = false)
    (hnew : ∀ it ∈ items, strUpper it.1 ≠ "NEW") :
    (is_person_name nameT = false →
      processCard pdfName pageIdx items = none) ∧
    (is_person_name nameT = true →
      processCard pdfName pageIdx items = some
        { company :=
            clean_company_name (" ".intercalate (claimCompanyParts items)),
          source_pdf := some pdfName, role := some "speaker",
          contact_name := some (norm nameT),
          contact_title :=
            (if claimTitleParts items = [] then none
             else some (norm (" ".intercalate (claimTitleParts items)))),
          team_size := none, confidence := 90, flags := [],
          source_page := some (pageIdx + 1) }) := by
  subst hitems
  have hlt : ¬(((nameT, fT) :: rest).length < 3) := by omega
  have hnewr : ∀ it ∈ ((((nameT, fT) :: rest).drop 1)).reverse,
      strUpper it.1 ≠ "NEW" := by
    intro it hit
    refine hnew it ?_
    rw [List.mem_reverse] at hit
    exact List.mem_of_mem_drop hit
  have hscan := scanBack_no_new ((((nameT, fT) :: rest).drop 1).reverse)
    (((nameT, fT) :: rest).length - 1) hnewr
  have htw :
      ((((nameT, fT) :: rest).drop 1).reverse).takeWhile
          (fun it => is_company_font it.2) =
        (claimCompanyLines ((nameT, fT) :: rest)).reverse := by
    unfold claimCompanyLines
    rw [List.reverse_reverse]
  rw [htw] at hscan
  constructor
  · intro hname
    unfold processCard
    rw [if_neg hlt]
    simp only [hkw, Bool.false_eq_true, if_false]
    simp only [hname, Bool.not_false, if_true]
  · intro hname
    unfold processCard
    rw [if_neg hlt]
    simp only [hkw, Bool.false_eq_true, if_false]
    simp only [hname, Bool.not_true, Bool.false_eq_true, if_false]
    rw [hscan]
    simp only []
    have hfilter : ∀ sub : List (String × String),
        (∀ it ∈ sub, strUpper it.1 ≠ "NEW") →
        (sub.map (fun it => it.1)).filter (fun t => strUpper t ≠ "NEW") =
          sub.map (fun it => it.1) := by
      intro sub hsub
      rw [List.filter_eq_self]
      intro t ht
      obtain ⟨it, hit, rfl⟩ := List.mem_map.mp ht
      simpa using hsub it hit
    by_cases hempty : claimCompanyLines ((nameT, fT) :: rest) = []
    · have hparts : claimCompanyParts ((nameT, fT) :: rest) =
          [strip_new_tag ((((nameT, fT) :: rest).getLast?.getD ("", "")).1)] := by
        unfold claimCompanyParts
        rw [if_pos hempty]
      have htitle : claimTitleParts ((nameT, fT) :: rest) =
          ((((nameT, fT) :: rest).drop 1).take
            (((nameT, fT) :: rest).length - 2)).map (fun it => it.1) := by
        unfold claimTitleParts
        rw [if_pos hempty]
      rw [hparts, htitle, hempty]
      simp only [List.reverse_nil, List.map_nil, eq_self_iff_true, if_true]
      have hfil := hfilter ((((nameT, fT) :: rest).drop 1).take
          (((nameT, fT) :: rest).length - 2))
        (fun it hit => hnew it
          (List.mem_of_mem_drop (List.mem_of_mem_take hit)))
      rw [hfil]
    · have hne : ¬(((claimCompanyLines ((nameT, fT) :: rest)).reverse.map
          (fun it => strip_new_tag it.1)).reverse = []) := by
        simp [hempty]
      have hparts : claimCompanyParts ((nameT, fT) :: rest) =
          (claimCompanyLines ((nameT, fT) :: rest)).map
            (fun it => strip_new_tag it.1) := by
        unfold claimCompanyParts
        rw [if_neg hempty]
      have htitle : claimTitleParts ((nameT, fT) :: rest) =
          ((((nameT, fT) :: rest).drop 1).take
            ((((nameT, fT) :: rest).drop 1).length -
              (claimCompanyLines ((nameT, fT) :: rest)).length)).map
            (fun it => it.1) := by
        unfold claimTitleParts
        rw [if_neg hempty]
      rw [hparts, htitle, if_neg hne]
      have hfil := hfilter ((((nameT, fT) :: rest).drop 1).take
          ((((nameT, fT) :: rest).drop 1).length -
            (claimCompanyLines ((nameT, fT) :: rest)).length))
        (fun it hit => hnew it
          (List.mem_of_mem_drop (List.mem_of_mem_take hit)))
      simp only [List.map_reverse, List.reverse_reverse,
        List.length_reverse, List.length_cons, List.length_drop,
        Nat.add_sub_cancel]
      simp only [List.length_cons, List.length_drop,
        Nat.add_sub_cancel] at hfil
      rw [hfil]
unseal pyws strLower strUpper splitChars splitStr startsWithL endsWithL
  norm stripChars pyStrip strip_new_tag subAmp clean_company_name
  personWordOk is_person_name isNumericPercent is_valid_company_name hasSub
  strContains countOcc is_header_footer teamOfSuffix matchTeamOfAux
  matchTeamOf idxOfChar lastIdxOfChar attendeeLineKw cardKw is_company_font in
/-- C6 witness: the spec scenario card (`"Acme Robotics"` in a bold-family
font, the other two lines not) yields exactly the scenario record. -/
theorem C6_witness :
    processCard "agenda.pdf" 0
        [("Jane Doe", "F-Medium"), ("VP of Support", "F-Light"),
         ("Acme Robotics", "F-Bold")] =
      some { company := "Acme Robotics", source_pdf := some "agenda.pdf",
             role := some "speaker", contact_name := some "Jane Doe",
             contact_title := some "VP of Support", team_size := none,
             confidence := 90, flags := [], source_page := some 1 } := by
  have h := (C6_amended "agenda.pdf" 0
    [("Jane Doe", "F-Medium"), ("VP of Support", "F-Light"),
     ("Acme Robotics", "F-Bold")] "Jane Doe" "F-Medium"
    [("VP of Support", "F-Light"), ("Acme Robotics", "F-Bold")] rfl
    (by decide) (by decide) (by decide)).2 (by decide)
  rw [h]
  decide

/-! ## Claim C8: intra-document deduplication -/

/-- First refuting record for C8: a speaker with one contact. -/
def c8r1 : Rec :=
  { company := "Acme", source_pdf := some "agenda.pdf",
    role := some "speaker", contact_name := some "Jane Doe",
    confidence := 90 }

/-- Second refuting record for C8: same company, different contact. -/
def c8r2 : Rec :=
  { company := "Acme", source_pdf := some "agenda.pdf",
    role := some "speaker", contact_name := some "Bob Roe",
    confidence := 90 }

unseal pyws strLower strUpper splitChars splitStr startsWithL endsWithL
  norm stripChars pyStrip strip_new_tag subAmp clean_company_name
  personWordOk is_person_name isNumericPercent is_valid_company_name hasSub
  strContains countOcc is_header_footer teamOfSuffix matchTeamOfAux
  matchTeamOf idxOfChar lastIdxOfChar attendeeLineKw cardKw is_company_font in
/-- C8 counterexample: the claim says the company-key collapse is applied
to EVERY document's record list, including speaker-lineup/schedule
documents — but the agenda branch of `parse_conference_pdf` applies only
`_dedupe_records` (exact tuple dedup), which keeps two same-company records
with different contacts, where `deduplicate_companies` would collapse them
to one. -/
theorem C8_counterexample :
    (parse_agenda_combined [c8r1, c8r2] []).length = 2 ∧
    ddKey c8r1 = ddKey c8r2 ∧
    (deduplicate_companies [c8r1, c8r2]).length = 1 :=
  ⟨by decide, by decide, by decide⟩

/-- C8 amended: `deduplicate_companies` groups records by the lowercased
stripped company key and on collision keeps the running maximum confidence,
the maximum defined team size (for absent-or-positive team sizes), and the
union of the flags sets; it is applied to attendee-list and fallback
documents. Documents parsed by the speaker-lineup and schedule extractors
are instead deduplicated by `_dedupe_records` on the exact case-insensitive
(company, contact, title, role) tuple, which preserves a representative of
every distinct tuple and performs no company-level collapse. -/
theorem C8_amended :
    (∀ (l : List Rec) (k : String) (r : Rec) (rs : List Rec),
      drecsFor k l = r :: rs →
      ∃ e, alookup k (dedupState l) = some e ∧
        e.confidence = rs.foldl (fun a q => max a q.confidence) r.confidence ∧
        ((∀ q ∈ r :: rs, tsOK q) →
          e.team_size = (r :: rs).foldl knownMaxTS none) ∧
        (∀ f, f ∈ e.flags ↔ ∃ q ∈ r :: rs, f ∈ q.flags)) ∧
    (∀ (s t : List Rec) (r : Rec), r ∈ s ++ t →
      ∃ r', r' ∈ parse_agenda_combined s t ∧ recKey4 r' = recKey4 r) := by
  constructor
  · intro l k r rs hdr
    refine ⟨collapseOf r rs, lookup_dedupState_cons hdr,
      collapseOf_confidence r rs,
      fun hok => collapseOf_team_size r rs hok,
      fun f => collapseOf_flags_mem r rs f⟩
  · intro s t r hr
    unfold parse_agenda_combined
    exact dedupe_records_covers (s ++ t) r hr

unseal pyws strLower strUpper splitChars splitStr startsWithL endsWithL
  norm stripChars pyStrip strip_new_tag subAmp clean_company_name
  personWordOk is_person_name isNumericPercent is_valid_company_name hasSub
  strContains countOcc is_header_footer teamOfSuffix matchTeamOfAux
  matchTeamOf idxOfChar lastIdxOfChar attendeeLineKw cardKw is_company_font in
/-- C8 witness: a concrete collision (max confidence, max team size, union
flags) and a concrete agenda-path tuple preservation. -/
theorem C8_witness :
    (∃ e, alookup "acme"
        (dedupState
          [({ company := "Acme", confidence := 90, team_size := some 2,
              flags := ["b"] } : Rec),
           ({ company := "acme ", confidence := 95, team_size := some 5,
              flags := ["a"] } : Rec)]) = some e ∧
      e.confidence =
        [({ company := "acme ", confidence := 95, team_size := some 5,
            flags := ["a"] } : Rec)].foldl (fun a q => max a q.confidence)
          ({ company := "Acme", confidence := 90, team_size := some 2,
             flags := ["b"] } : Rec).confidence ∧
      ((∀ q ∈ [({ company := "Acme", confidence := 90, team_size := some 2,
                  flags := ["b"] } : Rec),
               ({ company := "acme ", confidence := 95, team_size := some 5,
                  flags := ["a"] } : Rec)], tsOK q) →
        e.team_size =
          [({ company := "Acme", confidence := 90, team_size := some 2,
              flags := ["b"] } : Rec),
           ({ company := "acme ", confidence := 95, team_size := some 5,
              flags := ["a"] } : Rec)].foldl knownMaxTS none) ∧
      (∀ f, f ∈ e.flags ↔
        ∃ q ∈ [({ company := "Acme", confidence := 90, team_size := some 2,
                  flags := ["b"] } : Rec),
               ({ company := "acme ", confidence := 95, team_size := some 5,
                  flags := ["a"] } : Rec)], f ∈ q.flags)) ∧
    (∃ r', r' ∈ parse_agenda_combined [c8r1] [] ∧
      recKey4 r' = recKey4 c8r1) :=
  ⟨C8_amended.1
    [({ company := "Acme", confidence := 90, team_size := some 2,
        flags := ["b"] } : Rec),
     ({ company := "acme ", confidence := 95, team_size := some 5,
        flags := ["a"] } : Rec)] "acme"
    ({ company := "Acme", confidence := 90, team_size := some 2,
       flags := ["b"] } : Rec)
    [({ company := "acme ", confidence := 95, team_size := some 5,
        flags := ["a"] } : Rec)] (by decide),
   C8_amended.2 [c8r1] [] c8r1 (by decide)⟩

/-! ## Claim C1: behaviour of the reconciler under permutation -/

/-- First refuting record for C1 (upper-case display variant, seen first). -/
def c1rA : Rec :=
  { company := "ACME", source_pdf := some "a.pdf", role := some "attendee",
    team_size := some 4, confidence := 95, flags := ["x"] }

/-- Second refuting record for C1 (title-case display variant). -/
def c1ra : Rec :=
  { company := "Acme", source_pdf := some "b.pdf", role := some "speaker",
    contact_name := some "Jane Doe", contact_title := some "VP",
    confidence := 90 }

unseal pyws strLower strUpper splitChars splitStr startsWithL endsWithL
  norm stripChars pyStrip strip_new_tag subAmp clean_company_name
  personWordOk is_person_name isNumericPercent is_valid_company_name hasSub
  strContains countOcc is_header_footer teamOfSuffix matchTeamOfAux
  matchTeamOf idxOfChar lastIdxOfChar attendeeLineKw cardKw is_company_font in
/-- C1 counterexample: the two orderings of the same records produce
profiles that disagree on the company display name (the first record seen
for a key determines the stored casing), so the outputs do NOT agree on
every field as the claim states. -/
theorem C1_counterexample :
    ([c1rA, c1ra].Perm [c1ra, c1rA]) ∧
    (merge_all_companies [c1rA, c1ra]).map (fun o => o.company) = ["ACME"] ∧
    (merge_all_companies [c1ra, c1rA]).map (fun o => o.company) = ["Acme"] ∧
    ¬(("ACME" : String) = "Acme") :=
  ⟨List.Perm.swap c1ra c1rA [], by decide, by decide, by decide⟩

/-- C1 amended: over any permutation of the input records (with
absent-or-positive team sizes), the reconciler produces the same set of
canonical keys, and for each key the profiles agree on the lower-cased
company name, confidence, team size, flags list, joined source_pdf string,
joined role string, and the set of case-insensitive (name, title) contact
keys — but the display-name casing (and the order and stored casing of the
contacts) follows the first record seen, so it may differ between
orderings.  Running the reconciler twice over the same list is literally
the same function application, so it trivially yields identical output. -/
theorem C1_amended (l l' : List Rec) (hp : l.Perm l')
    (hts : ∀ r ∈ l, tsOK r) :
    ((mergeState l).map Prod.fst).Perm ((mergeState l').map Prod.fst) ∧
    (∀ k m m', alookup k (mergeState l) = some m →
      alookup k (mergeState l') = some m' →
      strLower (finalize m).company = strLower (finalize m').company ∧
      (finalize m).confidence = (finalize m').confidence ∧
      (finalize m).team_size = (finalize m').team_size ∧
      (finalize m).flags = (finalize m').flags ∧
      (finalize m).source_pdf = (finalize m').source_pdf ∧
      (finalize m).role = (finalize m').role ∧
      (∀ p, p ∈ ((finalize m).contacts).map ckey ↔
            p ∈ ((finalize m').contacts).map ckey)) := by
  constructor
  · refine (List.perm_ext_iff_of_nodup (mergeState_keys_nodup l)
      (mergeState_keys_nodup l')).mpr ?_
    intro k
    rw [mergeState_mem_keys, mergeState_mem_keys]
    have hperm : (recsFor k l).Perm (recsFor k l') := hp.filter _
    have hiff : recsFor k l = [] ↔ recsFor k l' = [] := by
      constructor
      · intro h
        exact ((h ▸ hperm).symm).eq_nil
      · intro h
        exact (h ▸ hperm).eq_nil
    exact not_congr hiff
  · intro k m m' hm hm'
    cases hdr : recsFor k l with
    | nil =>
      rw [lookup_mergeState_nil hdr] at hm
      exact absurd hm (by simp)
    | cons r rs =>
    cases hdr' : recsFor k l' with
    | nil =>
      rw [lookup_mergeState_nil hdr'] at hm'
      exact absurd hm' (by simp)
    | cons r' rs' =>
    rw [lookup_mergeState_cons hdr] at hm
    injection hm with hm
    subst hm
    rw [lookup_mergeState_cons hdr'] at hm'
    injection hm' with hm'
    subst hm'
    have hperm : (r :: rs).Perm (r' :: rs') := by
      have := hp.filter (fun c => validRec c && (recMergeKey c == k))
      rw [show l.filter (fun c => validRec c && (recMergeKey c == k)) =
            recsFor k l from rfl,
          show l'.filter (fun c => validRec c && (recMergeKey c == k)) =
            recsFor k l' from rfl, hdr, hdr'] at this
      exact this
    have hmem : ∀ q, q ∈ r :: rs ↔ q ∈ r' :: rs' := fun q => hperm.mem_iff
    have hsubl : ∀ q ∈ r :: rs, q ∈ l := by
      intro q hq
      have : q ∈ recsFor k l := hdr ▸ hq
      exact List.mem_of_mem_filter this
    have hok : ∀ q ∈ r :: rs, tsOK q := fun q hq => hts q (hsubl q hq)
    have hok' : ∀ q ∈ r' :: rs', tsOK q :=
      fun q hq => hok q ((hmem q).mpr hq)
    have hkey : ∀ q ∈ r :: rs, recMergeKey q = k := by
      intro q hq
      have hqf : q ∈ recsFor k l := hdr ▸ hq
      unfold recsFor at hqf
      rw [List.mem_filter] at hqf
      have := hqf.2
      simp only [Bool.and_eq_true, beq_iff_eq] at this
      exact this.2
    have hkey' : ∀ q ∈ r' :: rs', recMergeKey q = k := by
      intro q hq
      exact hkey q ((hmem q).mpr hq)
    refine ⟨?_, ?_, ?_, ?_, ?_, ?_, ?_⟩
    · show strLower (profileOf r rs).company =
        strLower (profileOf r' rs').company
      rw [profileOf_company, profileOf_company]
      have h1 : strLower (recClean r) = k :=
        hkey r (List.mem_cons_self _ _)
      have h2 : strLower (recClean r') = k :=
        hkey' r' (List.mem_cons_self _ _)
      rw [show strLower (recClean r) = recMergeKey r from rfl,
          show strLower (recClean r') = recMergeKey r' from rfl] at *
      rw [h1, h2]
    · show (profileOf r rs).confidence = (profileOf r' rs').confidence
      have h1 := profileOf_confidence r rs
      have h2 := profileOf_confidence r' rs'
      have hfold : (r :: rs).foldl omaxConf none =
          (r' :: rs').foldl omaxConf none :=
        hperm.foldl_eq' (fun x _ y _ z => omaxConf_comm x y z) none
      rw [hfold] at h1
      rw [← h2] at h1
      injection h1
    · show (profileOf r rs).team_size = (profileOf r' rs').team_size
      rw [profileOf_team_size r rs hok, profileOf_team_size r' rs' hok']
      exact hperm.foldl_eq' (fun x _ y _ z => knownMaxTS_comm x y z) none
    · show sortStrs (profileOf r rs).flags =
        sortStrs (profileOf r' rs').flags
      refine sortStrs_eq_of_mem_iff (profileOf_flags_nodup r rs)
        (profileOf_flags_nodup r' rs') ?_
      intro x
      rw [profileOf_flags_mem, profileOf_flags_mem]
      constructor
      · rintro ⟨q, hq, hx⟩
        exact ⟨q, (hmem q).mp hq, hx⟩
      · rintro ⟨q, hq, hx⟩
        exact ⟨q, (hmem q).mpr hq, hx⟩
    · show ", ".intercalate (sortStrs (profileOf r rs).source_pdfs) =
        ", ".intercalate (sortStrs (profileOf r' rs').source_pdfs)
      congr 1
      refine sortStrs_eq_of_mem_iff (profileOf_source_pdfs_nodup r rs)
        (profileOf_source_pdfs_nodup r' rs') ?_
      intro x
      rw [profileOf_source_pdfs_mem, profileOf_source_pdfs_mem]
      constructor
      · rintro ⟨q, hq, hx⟩
        exact ⟨q, (hmem q).mp hq, hx⟩
      · rintro ⟨q, hq, hx⟩
        exact ⟨q, (hmem q).mpr hq, hx⟩
    · show ", ".intercalate (sortStrs (dedupList (profileOf r rs).roles)) =
        ", ".intercalate (sortStrs (dedupList (profileOf r' rs').roles))
      congr 1
      refine sortStrs_eq_of_mem_iff (nodup_dedupList _) (nodup_dedupList _)
        ?_
      intro x
      rw [mem_dedupList, mem_dedupList, profileOf_roles_mem,
        profileOf_roles_mem]
      constructor
      · rintro ⟨q, hq, hx⟩
        exact ⟨q, (hmem q).mp hq, hx⟩
      · rintro ⟨q, hq, hx⟩
        exact ⟨q, (hmem q).mpr hq, hx⟩
    · intro p
      show p ∈ ((profileOf r rs).contacts).map ckey ↔
        p ∈ ((profileOf r' rs').contacts).map ckey
      rw [profileOf_contacts_mem, profileOf_contacts_mem]
      constructor
      · rintro ⟨q, hq, ht, hk⟩
        exact ⟨q, (hmem q).mp hq, ht, hk⟩
      · rintro ⟨q, hq, ht, hk⟩
        exact ⟨q, (hmem q).mpr hq, ht, hk⟩

/-- The profile the reconciler builds for key "acme" from `[c1rA, c1ra]`. -/
def c1mA : MProfile :=
  { company := "ACME", source_pdfs := ["a.pdf", "b.pdf"],
    roles := ["attendee", "speaker"], team_size := some 4,
    confidence := 95, flags := ["x"],
    contacts := [{ name := "Jane Doe", title := some "VP",
                   source_pdf := some "b.pdf" }] }

/-- The profile the reconciler builds for key "acme" from `[c1ra, c1rA]`. -/
def c1mB : MProfile :=
  { company := "Acme", source_pdfs := ["b.pdf", "a.pdf"],
    roles := ["speaker", "attendee"], team_size := some 4,
    confidence := 95, flags := ["x"],
    contacts := [{ name := "Jane Doe", title := some "VP",
                   source_pdf := some "b.pdf" }] }

unseal pyws strLower strUpper splitChars splitStr startsWithL endsWithL
  norm stripChars pyStrip strip_new_tag subAmp clean_company_name
  personWordOk is_person_name isNumericPercent is_valid_company_name hasSub
  strContains countOcc is_header_footer teamOfSuffix matchTeamOfAux
  matchTeamOf idxOfChar lastIdxOfChar attendeeLineKw cardKw is_company_font in
/-- C1 witness: the amended invariance theorem applied to the two concrete
orderings of `[c1rA, c1ra]`, at key "acme" with the two concrete profiles
the reconciler produces; all field agreements are realised there. -/
theorem C1_witness :
    (((mergeState [c1rA, c1ra]).map Prod.fst).Perm
      ((mergeState [c1ra, c1rA]).map Prod.fst)) ∧
    strLower (finalize c1mA).company = strLower (finalize c1mB).company ∧
    (finalize c1mA).confidence = (finalize c1mB).confidence ∧
    (finalize c1mA).team_size = (finalize c1mB).team_size ∧
    (finalize c1mA).flags = (finalize c1mB).flags ∧
    (finalize c1mA).source_pdf = (finalize c1mB).source_pdf ∧
    (finalize c1mA).role = (finalize c1mB).role ∧
    (("jane doe", "vp") ∈ ((finalize c1mA).contacts).map ckey ↔
     ("jane doe", "vp") ∈ ((finalize c1mB).contacts).map ckey) := by
  have h := C1_amended [c1rA, c1ra] [c1ra, c1rA]
    (List.Perm.swap c1ra c1rA []) (by decide)
  have h2 := h.2 "acme" c1mA c1mB (by decide) (by decide)
  exact ⟨h.1, h2.1, h2.2.1, h2.2.2.1, h2.2.2.2.1, h2.2.2.2.2.1,
    h2.2.2.2.2.2.1, h2.2.2.2.2.2.2 ("jane doe", "vp")⟩

end PdfParser
